import Mathlib

/-
Verification development for the PastPaper-Ragbot question parser
(`src/question_parser.py`) and the difficulty scorer (`src/enhance_simple.py`).

The Python code is shallowly embedded: Python strings are lists of characters,
the regular expressions of `_compile_patterns` are transcribed as deterministic
recognizers (with explicit backtracking where the pattern needs it), and the
`while` loops of `parse_questions_from_text` become structurally recursive
functions over the remaining list of lines (with a fuel parameter for the two
loops whose progress is not structural; a theorem below shows the fuel bound
`length + 1` always suffices, which is the termination argument of the scanner).

Modelling conventions:
* `\d`, `\s`, `\w` are modelled over their ASCII fragments, matching the
  documents the parser handles.
* Lines are obtained by splitting on `'\n'`; a line therefore never contains
  `'\n'`, and the recognizers are written for such single-line strings
  (`.` of the regexes then matches any character).
-/

namespace PastPaper

/-- Python strings, modelled as lists of characters. -/
abbrev PyStr := List Char

/-- Literal helper: a Lean string literal viewed as a Python string. -/
def pstr (s : String) : PyStr := s.toList

/-- ASCII whitespace: the characters stripped by Python `str.strip()` and
matched by the regex class `\s` (ASCII fragment). -/
def isSpaceChar (c : Char) : Bool :=
  c = ' ' || c = '\t' || c = '\n' || c = '\r' || c = '\x0b' || c = '\x0c'

/-- Python `str.lstrip()`. -/
def lstrip (s : PyStr) : PyStr := s.dropWhile isSpaceChar

/-- Python `str.rstrip()`. -/
def rstrip (s : PyStr) : PyStr := (s.reverse.dropWhile isSpaceChar).reverse

/-- Python `str.strip()`. -/
def strip (s : PyStr) : PyStr := lstrip (rstrip s)

/-- Python `text.split('\n')` (`question_parser.py` line 220). -/
def splitNl : PyStr → List PyStr
  | [] => [[]]
  | c :: rest =>
    if c = '\n' then [] :: splitNl rest
    else
      match splitNl rest with
      | [] => [[c]]
      | h :: t => (c :: h) :: t

/-- Python `sep.join(parts)`. -/
def joinSep (sep : PyStr) : List PyStr → PyStr
  | [] => []
  | [x] => x
  | x :: y :: rest => x ++ sep ++ joinSep sep (y :: rest)

/-- Python `' '.join(parts)`. -/
def joinSpace (parts : List PyStr) : PyStr := joinSep (pstr " ") parts

/-- Python `str.lower()` (ASCII model). -/
def pyLower (s : PyStr) : PyStr := s.map Char.toLower

/-- Python `str.upper()` (ASCII model). -/
def pyUpper (s : PyStr) : PyStr := s.map Char.toUpper

/-- Numeric value of a string of decimal digits (Python `int(...)` on the
capture group of `\d+`; the group is always non-empty ASCII digits, so the
`try/except` of `detect_question_start` never fires). -/
def natOfDigits (ds : PyStr) : ℕ := ds.foldl (fun n c => 10 * n + (c.toNat - 48)) 0

/-- Python decimal rendering `str(n)` of a natural number. -/
def natDec (n : ℕ) : PyStr := Nat.toDigits 10 n

/-- Python substring test `pat in s`. -/
def isSubstr (pat : PyStr) : PyStr → Bool
  | [] => decide (pat = [])
  | c :: rest => pat.isPrefixOf (c :: rest) || isSubstr pat rest

/- ------------------------------------------------------------------ -/
/- Line classifier: `_compile_patterns` + `detect_*`                   -/
/- ------------------------------------------------------------------ -/

/-- The regex fragment `\s+(.+)$` applied to the tail of a question-start
pattern: at least one whitespace character followed by at least one further
character.  `detect_question_start` immediately strips the capture group, and
stripping the group equals stripping the whole tail, which is what is
returned. -/
def wsPlusRest : PyStr → Option PyStr
  | c :: d :: rest => if isSpaceChar c then some (strip (c :: d :: rest)) else none
  | _ => none

/-- Question pattern 1 (priority order, `_compile_patterns` line 60):
`^(\d+)\)\s+(.+)$`, format tag `'parenthesis'`. -/
def matchParen (l : PyStr) : Option (ℕ × PyStr × PyStr) :=
  let ds := l.takeWhile Char.isDigit
  if ds = [] then none
  else
    match l.dropWhile Char.isDigit with
    | ')' :: tail => (wsPlusRest tail).map fun t => (natOfDigits ds, t, pstr "parenthesis")
    | _ => none

/-- Question pattern 2 (`_compile_patterns` line 61):
`^Q\.?\s*(\d+)\s+(.+)$`, case-insensitive, format tag `'q_dot'`. -/
def matchQDot (l : PyStr) : Option (ℕ × PyStr × PyStr) :=
  match l with
  | q :: rest =>
    if q = 'Q' || q = 'q' then
      let rest1 := match rest with
        | '.' :: r => r
        | r => r
      let rest2 := rest1.dropWhile isSpaceChar
      let ds := rest2.takeWhile Char.isDigit
      if ds = [] then none
      else (wsPlusRest (rest2.dropWhile Char.isDigit)).map
        fun t => (natOfDigits ds, t, pstr "q_dot")
    else none
  | [] => none

/-- Question pattern 3 (`_compile_patterns` line 62):
`^(\d+)\.\s+(.+)$`, format tag `'dot'`. -/
def matchDot (l : PyStr) : Option (ℕ × PyStr × PyStr) :=
  let ds := l.takeWhile Char.isDigit
  if ds = [] then none
  else
    match l.dropWhile Char.isDigit with
    | '.' :: tail => (wsPlusRest tail).map fun t => (natOfDigits ds, t, pstr "dot")
    | _ => none

/-- `detect_question_start` (`question_parser.py` lines 146-167): strip the
line, try the three patterns in priority order, return the first match. -/
def detect_question_start (line : PyStr) : Option (ℕ × PyStr × PyStr) :=
  let l := strip line
  if l = [] then none
  else
    match matchParen l with
    | some r => some r
    | none =>
      match matchQDot l with
      | some r => some r
      | none => matchDot l

/-- `detect_option` (`question_parser.py` lines 169-187).  The four option
patterns `^([A-D])\.\s*(.*)$`, `^([a-d])\.\s*(.*)$`, `^([A-D])\)\s*(.*)$`,
`^([a-d])\)\s*(.*)$` are tried in order; the captured label is normalized to
uppercase (line 183) and the captured text stripped (line 184).  The tail
`\s*(.*)$` always matches a single-line remainder, and stripping the capture
group equals stripping the whole remainder. -/
def detect_option (line : PyStr) : Option (Char × PyStr × PyStr) :=
  let l := strip line
  if l = [] then none
  else
    match l with
    | a :: sep :: rest =>
      if 'A' ≤ a && a ≤ 'D' && sep = '.' then
        some (a.toUpper, strip rest, pstr "upper_dot")
      else if 'a' ≤ a && a ≤ 'd' && sep = '.' then
        some (a.toUpper, strip rest, pstr "lower_dot")
      else if 'A' ≤ a && a ≤ 'D' && sep = ')' then
        some (a.toUpper, strip rest, pstr "upper_paren")
      else if 'a' ≤ a && a ≤ 'd' && sep = ')' then
        some (a.toUpper, strip rest, pstr "lower_paren")
      else none
    | _ => none

/-- The tail `\s*:\s*(.+)$` of the solution pattern after one of the marker
words: optional whitespace, a colon, then a non-empty remainder whose stripped
form is the capture (stripping the greedy-split capture group equals stripping
the remainder after the colon). -/
def solAfterWord (r : PyStr) : Option PyStr :=
  match r.dropWhile isSpaceChar with
  | ':' :: rest => if rest = [] then none else some (strip rest)
  | _ => none

/-- One alternative of the solution marker, case-insensitively (`w` is given
lowercase). -/
def solTry (w : String) (l : PyStr) : Option PyStr :=
  if pyLower (l.take (pstr w).length) = pstr w then solAfterWord (l.drop (pstr w).length)
  else none

/-- `detect_solution` (`question_parser.py` lines 189-194): the pattern
`^(?:Sol|Solution|Answer|Explanation)\s*:\s*(.+)$` (IGNORECASE) against the
stripped line; alternatives tried in order (at most one can complete, since
after `Sol` a colon must follow and `Solution` continues with `u`). -/
def detect_solution (line : PyStr) : Option PyStr :=
  let l := strip line
  match solTry "sol" l with
  | some r => some r
  | none =>
    match solTry "solution" l with
    | some r => some r
    | none =>
      match solTry "answer" l with
      | some r => some r
      | none => solTry "explanation" l

/-- Python truthiness of `detect_solution`'s result (`if sol_text:` at lines
276, 330; the empty string is falsy). -/
def solTruthy (line : PyStr) : Bool :=
  match detect_solution line with
  | some s => decide (s ≠ [])
  | none => false

/-- `extract_answer_from_option` (`question_parser.py` lines 196-207): search
for the trailing marker `\(Correct\)\s*$` (IGNORECASE).  A match exists
exactly when the right-stripped text ends with `"(correct)"` case-insensitively;
`sub` removes that unique match and the result is stripped. -/
def extract_answer_from_option (t : PyStr) : PyStr × Bool :=
  let r := rstrip t
  if pyLower (r.drop (r.length - 9)) = pstr "(correct)" && decide (9 ≤ r.length) then
    (strip (r.take (r.length - 9)), true)
  else
    (t, false)

/- ------------------------------------------------------------------ -/
/- `clean_text`: the exam-tag pattern and whitespace squeezing          -/
/- ------------------------------------------------------------------ -/

/-- Try the alternatives in order; first success wins (regex backtracking
preference order). -/
def firstSome {α β : Type} (f : α → Option β) : List α → Option β
  | [] => none
  | x :: xs =>
    match f x with
    | some b => some b
    | none => firstSome f xs

/-- Remainders after the greedy quantifier `p*`, in backtracking preference
order (maximal number of consumed characters first). -/
def starRems (p : Char → Bool) : PyStr → List PyStr
  | [] => [[]]
  | c :: rest => if p c then starRems p rest ++ [c :: rest] else [c :: rest]

/-- Remainders after the greedy optional `p?`, preference order. -/
def optRems (p : Char → Bool) : PyStr → List PyStr
  | [] => [[]]
  | c :: rest => if p c then [rest, c :: rest] else [c :: rest]

/-- Remainders after `\d{1,2}`, preference order (two digits before one). -/
def rep12Rems : PyStr → List PyStr
  | [] => []
  | [a] => if a.isDigit then [[]] else []
  | a :: b :: r =>
    if a.isDigit then (if b.isDigit then [r, b :: r] else [b :: r]) else []

/-- The exact fragment `\d{4}`. -/
def digits4 : PyStr → Option PyStr
  | a :: b :: c :: d :: r =>
    if a.isDigit && b.isDigit && c.isDigit && d.isDigit then some r else none
  | _ => none

/-- The regex class `[-\s]`. -/
def isDashSpace (c : Char) : Bool := c = '-' || isSpaceChar c

/-- The regex class `\w` (ASCII fragment: letters, digits, underscore). -/
def isWordChar (c : Char) : Bool := c.isAlphanum || c = '_'

/-- Case-insensitive literal prefix; returns the remainder. -/
def litPrefixCI (w : String) (cs : PyStr) : Option PyStr :=
  if pyLower (cs.take (pstr w).length) = pstr w then some (cs.drop (pstr w).length) else none

/-- Remainders after the alternation `(?:NET|NUST|MDCAT)` (IGNORECASE), in
preference order. -/
def litRems (cs : PyStr) : List PyStr :=
  ((litPrefixCI "net" cs).toList ++ (litPrefixCI "nust" cs).toList ++
    (litPrefixCI "mdcat" cs).toList)

/-- The deterministic tail `\)?\s*\)?` of the exam-tag pattern (always
matches; greedy consumption is forced because the rest of the pattern is
empty). -/
def closeTail (cs : PyStr) : PyStr :=
  let c1 := match cs with
    | ')' :: r => r
    | r => r
  let c2 := c1.dropWhile isSpaceChar
  match c2 with
  | ')' :: r => r
  | r => r

/-- Backtracking matcher for the part of the exam-tag pattern following the
`NET|NUST|MDCAT` literal: `[-\s]*\d*\s*\(?\d{1,2}[-\s]?\w*[-\s]?\d{4}\)?\s*\)?`
(`_compile_patterns` lines 80-83).  Returns the remainder after the match end,
trying candidate splits in the regex engine's preference order. -/
def examTagAfterLit (cs : PyStr) : Option PyStr :=
  firstSome (fun r1 =>
    firstSome (fun r2 =>
      firstSome (fun r3 =>
        firstSome (fun r4 =>
          firstSome (fun r5 =>
            firstSome (fun r6 =>
              firstSome (fun r7 =>
                firstSome (fun r8 =>
                  match digits4 r8 with
                  | some r9 => some (closeTail r9)
                  | none => none)
                  (optRems isDashSpace r7))
                (starRems isWordChar r6))
              (optRems isDashSpace r5))
            (rep12Rems r4))
          (optRems (· = '(') r3))
        (starRems isSpaceChar r2))
      (starRems Char.isDigit r1))
    (starRems isDashSpace cs)

/-- Match of the whole exam-tag pattern
`\(?\s*(?:NET|NUST|MDCAT)[-\s]*\d*\s*\(?\d{1,2}[-\s]?\w*[-\s]?\d{4}\)?\s*\)?`
anchored at the start of `cs`; returns the remainder after the match. -/
def examTagMatchEnd (cs : PyStr) : Option PyStr :=
  firstSome (fun r1 =>
    firstSome (fun r2 =>
      firstSome examTagAfterLit (litRems r2))
      (starRems isSpaceChar r1))
    (optRems (· = '(') cs)

/-- `self.exam_tag_pattern.sub('', text)` (`clean_text` line 141): scan left to
right, removing each leftmost non-overlapping match (every match consumes at
least the three-character literal, so fuel `length + 1` is never exhausted;
on exhaustion the rest is returned unchanged). -/
def examTagSubF : ℕ → PyStr → PyStr
  | 0, cs => cs
  | _ + 1, [] => []
  | fuel + 1, c :: rest =>
    match examTagMatchEnd (c :: rest) with
    | some rem => examTagSubF fuel rem
    | none => c :: examTagSubF fuel rest

/-- `self.exam_tag_pattern.sub('', text)`. -/
def exam_tag_sub (cs : PyStr) : PyStr := examTagSubF (cs.length + 1) cs

/-- `re.sub(r' {2,}', ' ', text)` (`clean_text` line 143): each maximal run of
two or more spaces is replaced by a single space, which collapses every run of
spaces to one space.  The flag records whether the previous character was a
space of the same run. -/
def squeezeAux (prevSpace : Bool) : PyStr → PyStr
  | [] => []
  | c :: rest =>
    if c = ' ' then
      if prevSpace then squeezeAux true rest
      else ' ' :: squeezeAux true rest
    else c :: squeezeAux false rest

/-- `re.sub(r' {2,}', ' ', text)`. -/
def squeezeSpaces (cs : PyStr) : PyStr := squeezeAux false cs

/-- `clean_text` (`question_parser.py` lines 138-144): remove exam tags,
collapse runs of spaces, strip. -/
def clean_text (text : PyStr) : PyStr := strip (squeezeSpaces (exam_tag_sub text))

example : exam_tag_sub (pstr "NET 12-Jan-2020") = [] := by decide
example : clean_text (pstr "What is  force?  (NET 5-Mar-2019)") = pstr "What is force?" := by
  decide
example : clean_text (pstr "plain   text ") = pstr "plain text" := by decide

/- ------------------------------------------------------------------ -/
/- Subject classification and record metadata                          -/
/- ------------------------------------------------------------------ -/

/-- `_load_subject_keywords` (`question_parser.py` lines 91-136): the subject
vocabulary in declaration order (Python dicts preserve insertion order). -/
def subject_keywords : List (PyStr × List PyStr) :=
  [ (pstr "physics", [pstr "velocity", pstr "acceleration", pstr "force", pstr "energy",
      pstr "momentum", pstr "mass", pstr "electric", pstr "magnetic", pstr "wave",
      pstr "frequency", pstr "wavelength", pstr "photon", pstr "quantum", pstr "nuclear",
      pstr "atom", pstr "electron", pstr "proton", pstr "neutron", pstr "circuit",
      pstr "voltage", pstr "current", pstr "resistance", pstr "capacitor", pstr "motion",
      pstr "gravity", pstr "friction", pstr "pressure", pstr "temperature",
      pstr "thermodynamics", pstr "optics", pstr "lens", pstr "mirror", pstr "refraction",
      pstr "kinetic", pstr "potential", pstr "joule", pstr "watt", pstr "newton",
      pstr "coulomb"]),
    (pstr "chemistry", [pstr "atom", pstr "molecule", pstr "compound", pstr "element",
      pstr "reaction", pstr "bond", pstr "acid", pstr "base", pstr "pH", pstr "oxidation",
      pstr "reduction", pstr "catalyst", pstr "organic", pstr "inorganic", pstr "alkane",
      pstr "alkene", pstr "alkyne", pstr "benzene", pstr "electron", pstr "ion",
      pstr "cation", pstr "anion", pstr "isotope", pstr "mole", pstr "solution",
      pstr "solvent", pstr "solute", pstr "concentration", pstr "molarity",
      pstr "periodic", pstr "valency", pstr "electronegativity", pstr "hybridization",
      pstr "equilibrium", pstr "stoichiometry", pstr "enthalpy", pstr "entropy"]),
    (pstr "biology", [pstr "cell", pstr "DNA", pstr "RNA", pstr "gene", pstr "protein",
      pstr "enzyme", pstr "chromosome", pstr "mitochondria", pstr "chloroplast",
      pstr "nucleus", pstr "ribosome", pstr "membrane", pstr "photosynthesis",
      pstr "respiration", pstr "metabolism", pstr "glycolysis", pstr "mitosis",
      pstr "meiosis", pstr "tissue", pstr "organ", pstr "blood", pstr "heart",
      pstr "nervous", pstr "brain", pstr "hormone", pstr "reproduction", pstr "evolution",
      pstr "bacteria", pstr "virus", pstr "fungi", pstr "plant", pstr "animal",
      pstr "species", pstr "ecosystem", pstr "genetics", pstr "mutation", pstr "allele",
      pstr "phenotype"]),
    (pstr "mathematics", [pstr "equation", pstr "function", pstr "derivative",
      pstr "integral", pstr "limit", pstr "matrix", pstr "determinant", pstr "vector",
      pstr "trigonometry", pstr "logarithm", pstr "polynomial", pstr "quadratic",
      pstr "linear", pstr "parabola", pstr "hyperbola", pstr "probability",
      pstr "statistics", pstr "mean", pstr "median", pstr "variance", pstr "sequence",
      pstr "series", pstr "geometric", pstr "arithmetic", pstr "permutation",
      pstr "combination", pstr "binomial", pstr "cosine", pstr "sine", pstr "tangent",
      pstr "complex", pstr "imaginary", pstr "real", pstr "rational", pstr "irrational"]),
    (pstr "english", [pstr "grammar", pstr "vocabulary", pstr "synonym", pstr "antonym",
      pstr "sentence", pstr "noun", pstr "verb", pstr "adjective", pstr "adverb",
      pstr "pronoun", pstr "tense", pstr "preposition", pstr "conjunction",
      pstr "article", pstr "comprehension", pstr "passage", pstr "meaning",
      pstr "context"]) ]

/-- The candidate text scored by `classify_subject` (lines 446-450): the
lowercased question text followed by `" " + opt['text'].lower()` for each
option. -/
def candidateText (question_text : PyStr) (options : List (Char × PyStr)) : PyStr :=
  options.foldl (fun acc o => acc ++ ' ' :: pyLower o.2) (pyLower question_text)

/-- The score of one subject (lines 454-459): the number of its keywords that
occur as substrings of the candidate text. -/
def subjectScore (kws : List PyStr) (text : PyStr) : ℕ :=
  (kws.filter fun k => isSubstr k text).length

/-- Python `max(scores, key=scores.get)` over an association list in insertion
order: the first key attaining the maximal value (later entries replace the
running maximum only when strictly greater). -/
def firstMax : List (PyStr × ℕ) → Option (PyStr × ℕ)
  | [] => none
  | x :: xs =>
    match firstMax xs with
    | none => some x
    | some y => if y.2 > x.2 then some y else some x

/-- `classify_subject` (`question_parser.py` lines 444-467). -/
def classify_subject (question_text : PyStr) (options : List (Char × PyStr)) : PyStr :=
  let text := candidateText question_text options
  let scores := subject_keywords.map fun p => (p.1, subjectScore p.2 text)
  match firstMax scores with
  | some best => if best.2 > 0 then best.1 else pstr "general"
  | none => pstr "general"

/-- Leftmost match of `re.search(r'20\d{2}', filename)` (`extract_exam_info`
line 439), returned as `int(match.group(0))`. -/
def searchYear : PyStr → Option ℕ
  | [] => none
  | c1 :: rest =>
    match rest with
    | c2 :: c3 :: c4 :: _ =>
      if c1 = '2' && c2 = '0' && c3.isDigit && c4.isDigit then
        some (2000 + 10 * (c3.toNat - 48) + (c4.toNat - 48))
      else searchYear rest
    | _ => none

/-- `extract_exam_info` (`question_parser.py` lines 427-442). -/
def extract_exam_info (filename : PyStr) : PyStr × Option ℕ :=
  let f := pyUpper filename
  let exam_type :=
    if isSubstr (pstr "MDCAT") f then pstr "MDCAT"
    else if isSubstr (pstr "NET") f || isSubstr (pstr "NUST") f then pstr "NET"
    else pstr "GENERAL"
  (exam_type, searchYear f)

/-- Python `f"{q_num:03d}"`. -/
def pad3 (n : ℕ) : PyStr :=
  let d := natDec n
  List.replicate (3 - d.length) '0' ++ d

/-- `generate_question_id` (`question_parser.py` lines 469-472); the year is
truthy only when present and non-zero. -/
def generate_question_id (exam_type : PyStr) (year : Option ℕ) (q_num : ℕ) : PyStr :=
  let year_str := match year with
    | some y => if y = 0 then pstr "UNKNOWN" else natDec y
    | none => pstr "UNKNOWN"
  exam_type ++ '_' :: year_str ++ '_' :: 'Q' :: pad3 q_num

/-- The character class of `self.formula_indicators`
(`[=+\-*/^√∫∑∆πλθαβγ]`, line 86). -/
def formulaChars : List Char :=
  ['=', '+', '-', '*', '/', '^', '√', '∫', '∑', '∆', 'π', 'λ', 'θ', 'α', 'β', 'γ']

/-- `bool(self.formula_indicators.search(text))`: the class above or the
literals `\frac`, `\sqrt` occur somewhere. -/
def has_formulas_in (t : PyStr) : Bool :=
  t.any (formulaChars.contains ·) || isSubstr (pstr "\\frac") t || isSubstr (pstr "\\sqrt") t

/-- The operator class of `self.calculation_indicators` (`[+\-×÷*/]`, line 89). -/
def calcOps : List Char := ['+', '-', '×', '÷', '*', '/']

/-- Anchored match of `\d+\s*[+\-×÷*/]\s*\d+` (greedy runs are forced because
digits, whitespace and operators are pairwise disjoint classes). -/
def calcMatchA (cs : PyStr) : Bool :=
  let r1 := cs.dropWhile Char.isDigit
  if (cs.takeWhile Char.isDigit) = [] then false
  else
    match r1.dropWhile isSpaceChar with
    | op :: r3 =>
      calcOps.contains op && ((r3.dropWhile isSpaceChar).takeWhile Char.isDigit) ≠ []
    | [] => false

/-- Anchored match of `=\s*\d+`. -/
def calcMatchB (cs : PyStr) : Bool :=
  match cs with
  | '=' :: r => ((r.dropWhile isSpaceChar).takeWhile Char.isDigit) ≠ []
  | _ => false

/-- `bool(self.calculation_indicators.search(text))`: some position starts a
match of either alternative. -/
def has_calculations_in : PyStr → Bool
  | [] => false
  | c :: rest => calcMatchA (c :: rest) || calcMatchB (c :: rest) || has_calculations_in rest

/-- `generate_embedding_text` (`question_parser.py` lines 474-500). -/
def generate_embedding_text (question_text : PyStr) (options : List (Char × PyStr))
    (subject : PyStr) (correct_answer : Option Char) : PyStr :=
  let parts1 := [pstr "Question: " ++ question_text]
  let option_texts := (options.filter fun o => o.2 ≠ []).map (·.2)
  let parts2 := parts1 ++
    (if option_texts = [] then [] else [pstr "Options: " ++ joinSep (pstr " | ") option_texts])
  let parts3 := parts2 ++ [pstr "Subject: " ++ subject]
  let parts4 := parts3 ++
    (match correct_answer with
     | none => []
     | some c =>
       match options.find? (fun o => o.1 = c) with
       | some o => [pstr "Answer: " ++ o.2]
       | none => [])
  joinSep (pstr " ") parts4

/-- The `raw_text` built at `create_question` lines 404-407. -/
def raw_text_of (question_number : ℕ) (question_text : PyStr)
    (options : List (Char × PyStr)) : PyStr :=
  options.foldl (fun acc o => acc ++ o.1 :: pstr ". " ++ o.2 ++ ['\n'])
    ('Q' :: natDec question_number ++ pstr ". " ++ question_text ++ ['\n'])

/-- The `Question` dataclass (`question_parser.py` lines 17-44).  Option labels
are the single-character capture groups; an option dict `{'label','text'}` is a
pair. -/
structure Question where
  id : PyStr
  question_number : ℕ
  question_text : PyStr
  options : List (Char × PyStr)
  correct_answer : Option Char
  solution : Option PyStr
  subject : PyStr
  topic : Option PyStr
  difficulty : PyStr
  has_formulas : Bool
  has_calculations : Bool
  has_multiline : Bool
  source_file : PyStr
  exam_type : PyStr
  year : Option ℕ
  embedding_text : PyStr
  raw_text : PyStr
  deriving DecidableEq, Repr, Inhabited

/-- `create_question` (`question_parser.py` lines 371-425). -/
def create_question (question_number : ℕ) (question_text : PyStr)
    (options : List (Char × PyStr)) (correct_answer : Option Char)
    (solution : Option PyStr) (source_file : PyStr) : Question :=
  let qt := clean_text question_text
  let info := extract_exam_info source_file
  let subject := classify_subject qt options
  { id := generate_question_id info.1 info.2 question_number
    question_number := question_number
    question_text := qt
    options := options
    correct_answer := correct_answer
    solution := solution
    subject := subject
    topic := none
    difficulty := pstr "medium"
    has_formulas := has_formulas_in qt
    has_calculations := has_calculations_in qt
    has_multiline := qt.contains '\n' || options.any (fun o => o.2.contains '\n')
    source_file := source_file
    exam_type := info.1
    year := info.2
    embedding_text := generate_embedding_text qt options subject correct_answer
    raw_text := raw_text_of question_number qt options }

example : classify_subject (pstr "the force on a mass") [] = pstr "physics" := by decide
example : classify_subject (pstr "just words") [] = pstr "general" := by decide
example : extract_exam_info (pstr "net_2021_paper.txt") = (pstr "NET", some 2021) := by decide
example : generate_question_id (pstr "NET") (some 2021) 7 = pstr "NET_2021_Q007" := by decide

/- ------------------------------------------------------------------ -/
/- The question assembler: `parse_questions_from_text`                 -/
/- ------------------------------------------------------------------ -/

/-- The header loop (`parse_questions_from_text` lines 242-258): skip blank
lines, stop (without consuming) on an option line or a new question line,
otherwise collect the stripped line as question continuation.  Returns the
collected lines and the unconsumed remainder. -/
def headerLoop : List PyStr → List PyStr × List PyStr
  | [] => ([], [])
  | l :: rest =>
    let p := strip l
    if p = [] then headerLoop rest
    else if (detect_option p).isSome || (detect_question_start p).isSome then
      ([], l :: rest)
    else
      let r := headerLoop rest
      (p :: r.1, r.2)

/-- The option-continuation loop (lines 293-308): skip blank lines, stop on an
option, question or (truthy) solution line, otherwise collect the stripped
line as continuation of the current option. -/
def optContLoop : List PyStr → List PyStr × List PyStr
  | [] => ([], [])
  | l :: rest =>
    let p := strip l
    if p = [] then optContLoop rest
    else if (detect_option p).isSome || (detect_question_start p).isSome || solTruthy p then
      ([], l :: rest)
    else
      let r := optContLoop rest
      (p :: r.1, r.2)

/-- The solution-continuation loop (lines 335-347): skip blank lines, stop on
a new question line, otherwise collect the stripped line. -/
def solLoop : List PyStr → List PyStr × List PyStr
  | [] => ([], [])
  | l :: rest =>
    let p := strip l
    if p = [] then solLoop rest
    else if (detect_question_start p).isSome then ([], l :: rest)
    else
      let r := solLoop rest
      (p :: r.1, r.2)

/-- The option loop (lines 267-324), with a fuel parameter (each step consumes
at least one line, so fuel `length + 1` always suffices — proved below).
Returns the accumulated `(label, text)` options, the inline `correct_answer`
(a later `(Correct)` marker overwrites an earlier one, lines 315-316), and the
unconsumed remainder. -/
def optionsLoopF : ℕ → List PyStr → Option (List (Char × PyStr) × Option Char × List PyStr)
  | 0, _ => none
  | _ + 1, [] => some ([], none, [])
  | fuel + 1, l :: rest =>
    let p := strip l
    if p = [] then optionsLoopF fuel rest
    else if solTruthy p then some ([], none, l :: rest)
    else if (detect_question_start p).isSome then some ([], none, l :: rest)
    else
      match detect_option p with
      | some olab =>
        let cont := optContLoop rest
        let full := strip (joinSpace ((if olab.2.1 = [] then [] else [olab.2.1]) ++ cont.1))
        let ext := extract_answer_from_option full
        match optionsLoopF fuel cont.2 with
        | some r =>
          some ((olab.1, ext.1) :: r.1,
            (match r.2.1 with
             | some c => some c
             | none => if ext.2 then some olab.1 else none),
            r.2.2)
        | none => none
      | none => optionsLoopF fuel rest

theorem headerLoop_rem_length (ls : List PyStr) : (headerLoop ls).2.length ≤ ls.length := by
  induction ls with
  | nil => simp [headerLoop]
  | cons l rest ih =>
    simp only [headerLoop]
    split
    · exact le_trans ih (by simp)
    · split
      · simp
      · simpa using Nat.le_succ_of_le ih

theorem optContLoop_rem_length (ls : List PyStr) : (optContLoop ls).2.length ≤ ls.length := by
  induction ls with
  | nil => simp [optContLoop]
  | cons l rest ih =>
    simp only [optContLoop]
    split
    · exact le_trans ih (by simp)
    · split
      · simp
      · simpa using Nat.le_succ_of_le ih

theorem solLoop_rem_length (ls : List PyStr) : (solLoop ls).2.length ≤ ls.length := by
  induction ls with
  | nil => simp [solLoop]
  | cons l rest ih =>
    simp only [solLoop]
    split
    · exact le_trans ih (by simp)
    · split
      · simp
      · simpa using Nat.le_succ_of_le ih

theorem optionsLoopF_isSome : ∀ (fuel : ℕ) (ls : List PyStr), ls.length < fuel →
    (optionsLoopF fuel ls).isSome := by
  intro fuel
  induction fuel with
  | zero => intro ls h; omega
  | succ fuel ih =>
    intro ls h
    match ls with
    | [] => simp [optionsLoopF]
    | l :: rest =>
      have hr : rest.length < fuel := by simp at h; omega
      simp only [optionsLoopF]
      split
      · exact ih rest hr
      · split
        · simp
        · split
          · simp
          · split
            · have hrem : (optContLoop rest).2.length < fuel :=
                lt_of_le_of_lt (optContLoop_rem_length rest) hr
              have hsome := ih _ hrem
              split
              · simp
              · next heq => rw [heq] at hsome; simp at hsome
            · exact ih rest hr

theorem optionsLoopF_rem_length : ∀ (fuel : ℕ) (ls : List PyStr)
    (r : List (Char × PyStr) × Option Char × List PyStr),
    optionsLoopF fuel ls = some r → r.2.2.length ≤ ls.length := by
  intro fuel
  induction fuel with
  | zero => intro ls r h; simp [optionsLoopF] at h
  | succ fuel ih =>
    intro ls r h
    match ls with
    | [] =>
      simp [optionsLoopF] at h
      simp [← h]
    | l :: rest =>
      simp only [optionsLoopF] at h
      split at h
      · exact le_trans (ih rest r h) (by simp)
      · split at h
        · simp at h; simp [← h]
        · split at h
          · simp at h; simp [← h]
          · split at h
            · split at h
              · next r' heq =>
                have h1 := ih _ r' heq
                have h2 := optContLoop_rem_length rest
                simp at h
                subst h
                simp only [List.length_cons]
                omega
              · simp at h
            · exact le_trans (ih rest r h) (by simp)

/-- The option loop as a total function (fuel `length + 1` suffices). -/
def optionsLoop (ls : List PyStr) : List (Char × PyStr) × Option Char × List PyStr :=
  (optionsLoopF (ls.length + 1) ls).get (optionsLoopF_isSome _ _ (Nat.lt_succ_self _))

theorem optionsLoop_rem_length (ls : List PyStr) : (optionsLoop ls).2.2.length ≤ ls.length := by
  have h := Option.some_get (optionsLoopF_isSome (ls.length + 1) ls (Nat.lt_succ_self _))
  exact optionsLoopF_rem_length _ _ _ h.symm

/-- The solution phase (`parse_questions_from_text` lines 326-349): if the
first unconsumed line is a truthy solution line, collect it together with its
continuation lines; otherwise leave the remainder untouched. -/
def solPhase : List PyStr → Option PyStr × List PyStr
  | [] => (none, [])
  | l2 :: rest2 =>
    match detect_solution (strip l2) with
    | some s =>
      if s = [] then (none, l2 :: rest2)
      else (some (strip (joinSpace (s :: (solLoop rest2).1))), (solLoop rest2).2)
    | none => (none, l2 :: rest2)

theorem solPhase_rem_length (ls : List PyStr) : (solPhase ls).2.length ≤ ls.length := by
  match ls with
  | [] => simp [solPhase]
  | l2 :: rest2 =>
    simp only [solPhase]
    split
    · split
      · simp
      · simpa using Nat.le_succ_of_le (solLoop_rem_length rest2)
    · simp

/-- The whole question extraction following a detected question start: header
accumulation, option accumulation, the optional solution block, the promotion
check of line 352, and the recursive continuation of the outer `while` loop.
The second component of the result is the number of closed blocks dropped by
the promotion check.

Modelled from the spec: §7 requires the core to report "a count of rejected
blocks"; the source keeps no such counter (rejected blocks are dropped
silently), so the count is carried here as a ghost output that increments
exactly when the promotion check `full_question and len(options) >= 2` fails. -/
def parseLoopF (source_file : PyStr) : ℕ → List PyStr → Option (List Question × ℕ)
  | 0, _ => none
  | _ + 1, [] => some ([], 0)
  | fuel + 1, l :: rest =>
    let p := strip l
    if p = [] then parseLoopF source_file fuel rest
    else
      match detect_question_start p with
      | none => parseLoopF source_file fuel rest
      | some q =>
        let hdr := headerLoop rest
        let full := strip (joinSpace ((if q.2.1 = [] then [] else [q.2.1]) ++ hdr.1))
        let ol := optionsLoop hdr.2
        let solrem := solPhase ol.2.2
        match parseLoopF source_file fuel solrem.2 with
        | none => none
        | some qs =>
          if full ≠ [] ∧ 2 ≤ ol.1.length then
            some (create_question q.1 full ol.1 ol.2.1 solrem.1 source_file :: qs.1, qs.2)
          else
            some (qs.1, qs.2 + 1)

theorem parseLoopF_isSome (source_file : PyStr) : ∀ (fuel : ℕ) (ls : List PyStr),
    ls.length < fuel → (parseLoopF source_file fuel ls).isSome := by
  intro fuel
  induction fuel with
  | zero => intro ls h; omega
  | succ fuel ih =>
    intro ls h
    match ls with
    | [] => simp [parseLoopF]
    | l :: rest =>
      have hr : rest.length < fuel := by simp at h; omega
      have hchain : (solPhase (optionsLoop (headerLoop rest).2).2.2).2.length < fuel :=
        lt_of_le_of_lt (le_trans (solPhase_rem_length _)
          (le_trans (optionsLoop_rem_length _) (headerLoop_rem_length rest))) hr
      simp only [parseLoopF]
      split
      · exact ih rest hr
      · split
        · exact ih rest hr
        · have hsome := ih _ hchain
          split
          · next heq => rw [heq] at hsome; simp at hsome
          · split <;> (split <;> simp)

/-- `parse_questions_from_text` (`question_parser.py` lines 209-369) together
with the spec-modelled rejected-block count: split the text on newlines and
run the scanner (fuel `length + 1` suffices by `parseLoopF_isSome`). -/
def parse_result (text source_file : PyStr) : List Question × ℕ :=
  (parseLoopF source_file ((splitNl text).length + 1) (splitNl text)).get
    (parseLoopF_isSome source_file _ _ (Nat.lt_succ_self _))

/-- `parse_questions_from_text`: the list of promoted questions. -/
def parse_questions_from_text (text : PyStr) (source_file : PyStr) : List Question :=
  (parse_result text source_file).1

/-- Modelled from the spec: the overall count of rejected blocks (§7, §8) —
the number of closed blocks dropped by the promotion check; the source drops
them silently without keeping a counter. -/
def rejected_count (text : PyStr) (source_file : PyStr) : ℕ :=
  (parse_result text source_file).2

example :
    (parse_questions_from_text
      (pstr "1. What is the atomic number of Carbon?\na. 6\nb. 12\nc. 14\nd. 16") []).map
      (fun q => (q.question_number, q.question_text, q.options.map Prod.fst,
        q.correct_answer)) =
      [(1, pstr "What is the atomic number of Carbon?", ['A', 'B', 'C', 'D'], none)] := by
  decide

example :
    (parse_questions_from_text (pstr "1. Capital?\nA. London\nB. Berlin\nC) Paris (Correct)")
      []).map (fun q => (q.options, q.correct_answer)) =
      [([('A', pstr "London"), ('B', pstr "Berlin"), ('C', pstr "Paris")], some 'C')] := by
  decide

example : rejected_count (pstr "1. Only one option\nA. alone") [] = 1 := by decide

/- ------------------------------------------------------------------ -/
/- Difficulty scorer: `enhance_simple.py`                              -/
/- ------------------------------------------------------------------ -/

/-- Python `round(x, 1)` (round half to even at one decimal), on exact
rationals.  Every score produced below is a multiple of `1/2`, on which this
is the identity, and binary floating point is exact on these values, so the
rational model is faithful. -/
def pyRound1 (q : ℚ) : ℚ :=
  let x := q * 10
  let f : ℤ := ⌊x⌋
  let n : ℤ :=
    if x - f < 1 / 2 then f
    else if 1 / 2 < x - f then f + 1
    else if f % 2 = 0 then f else f + 1
  (n : ℚ) / 10

/-- The additive score accumulated by `calculate_difficulty_score`
(`enhance_simple.py` lines 114-151) before clamping and rounding.  An option
dict contributes only `opt.get('text', '')`, so options are modelled by their
text fields.  The formula/calculation regexes at lines 127-128 are the same
pattern strings as the parser's `_compile_patterns`, hence the shared
recognizers. -/
def difficultyRaw (question_text : PyStr) (options : List PyStr) : ℚ :=
  let score : ℚ := 5
  let q_len := question_text.length
  let score :=
    if 200 < q_len then score + 1
    else if 300 < q_len then score + 3 / 2
    else if q_len < 50 then score - 1 / 2
    else score
  let score := if has_formulas_in question_text then score + 1 / 2 else score
  let score := if has_calculations_in question_text then score + 1 / 2 else score
  let score :=
    if options ≠ [] then
      if 50 < (((options.map List.length).sum : ℚ) / (options.length : ℚ)) then score + 1 / 2
      else score
    else score
  let text_lower := pyLower question_text
  let score :=
    if [pstr "complex", pstr "advanced", pstr "derive", pstr "prove"].any
        (fun w => isSubstr w text_lower) then score + 1
    else if [pstr "simple", pstr "basic", pstr "elementary"].any
        (fun w => isSubstr w text_lower) then score - 1 / 2
    else score
  let score :=
    if isSubstr (pstr "and") text_lower &&
        (isSubstr (pstr "calculate") text_lower || isSubstr (pstr "find") text_lower) then
      score + 1 / 2
    else score
  score

/-- `calculate_difficulty_score` (`enhance_simple.py` lines 103-154): the
accumulated score, rounded to one decimal and clamped to `[1, 10]`
(line 154: `max(1.0, min(10.0, round(score, 1)))`). -/
def calculate_difficulty_score (question_text : PyStr) (options : List PyStr) : ℚ :=
  max 1 (min 10 (pyRound1 (difficultyRaw question_text options)))

/-- `get_difficulty_level` (`enhance_simple.py` lines 156-173). -/
def get_difficulty_level (score : ℚ) : PyStr :=
  if score < 7 / 2 then pstr "easy"
  else if score < 13 / 2 then pstr "medium"
  else if score < 17 / 2 then pstr "hard"
  else pstr "expert"

/-- The position of a band in the order easy < medium < hard < expert. -/
def bandIndex (b : PyStr) : ℕ :=
  if b = pstr "easy" then 0
  else if b = pstr "medium" then 1
  else if b = pstr "hard" then 2
  else 3

example : calculate_difficulty_score (pstr "Derive and find x = 3 + 4") [] = 7 := by
  simp only [calculate_difficulty_score, difficultyRaw,
    show (pstr "Derive and find x = 3 + 4").length = 25 from rfl,
    show has_formulas_in (pstr "Derive and find x = 3 + 4") = true from rfl,
    show has_calculations_in (pstr "Derive and find x = 3 + 4") = true from rfl,
    show pyLower (pstr "Derive and find x = 3 + 4") = pstr "derive and find x = 3 + 4" from
      rfl,
    show ([pstr "complex", pstr "advanced", pstr "derive", pstr "prove"].any
        fun w => isSubstr w (pstr "derive and find x = 3 + 4")) = true from rfl,
    show (isSubstr (pstr "and") (pstr "derive and find x = 3 + 4") &&
        (isSubstr (pstr "calculate") (pstr "derive and find x = 3 + 4") ||
          isSubstr (pstr "find") (pstr "derive and find x = 3 + 4"))) = true from rfl]
  norm_num [pyRound1]
example : get_difficulty_level (75 / 10) = pstr "hard" := by norm_num [get_difficulty_level]

/- ------------------------------------------------------------------ -/
/- Character-arithmetic utility lemmas                                 -/
/- ------------------------------------------------------------------ -/

theorem uint32_le_toNat (x y : UInt32) : x ≤ y ↔ x.toNat ≤ y.toNat := by
  rw [UInt32.le_def, BitVec.le_def]; rfl

theorem char_le_toNat (a b : Char) : a ≤ b ↔ a.toNat ≤ b.toNat := by
  rw [Char.le_def]; exact uint32_le_toNat _ _

theorem char_eq_of_toNat (a b : Char) (h : a.toNat = b.toNat) : a = b :=
  Char.ext (UInt32.toNat.inj h)

theorem char_ofNat_toNat {n : ℕ} (h : n < 55296) : (Char.ofNat n).toNat = n := by
  have hv : n.isValidChar := Or.inl h
  simp [Char.ofNat, hv, Char.ofNatAux, Char.toNat, UInt32.toNat, UInt32.ofNat']

theorem char_isUpper_iff (d : Char) : d.isUpper = true ↔ 65 ≤ d.toNat ∧ d.toNat ≤ 90 := by
  simp only [Char.isUpper, Bool.and_eq_true, decide_eq_true_eq, ge_iff_le]
  rw [uint32_le_toNat, uint32_le_toNat]
  exact Iff.rfl

theorem toUpper_of_lower_ad {a : Char} (h1 : 'a' ≤ a) (h2 : a ≤ 'd') :
    a.toUpper = 'A' ∨ a.toUpper = 'B' ∨ a.toUpper = 'C' ∨ a.toUpper = 'D' := by
  rw [char_le_toNat] at h1 h2
  have h1' : 97 ≤ a.toNat := h1
  have h2' : a.toNat ≤ 100 := h2
  unfold Char.toUpper
  rw [if_pos (by omega)]
  have hcase : a.toNat - 32 = 65 ∨ a.toNat - 32 = 66 ∨ a.toNat - 32 = 67 ∨ a.toNat - 32 = 68 := by
    omega
  rcases hcase with h | h | h | h
  · left; apply char_eq_of_toNat; rw [char_ofNat_toNat (by omega), h]; rfl
  · right; left; apply char_eq_of_toNat; rw [char_ofNat_toNat (by omega), h]; rfl
  · right; right; left; apply char_eq_of_toNat; rw [char_ofNat_toNat (by omega), h]; rfl
  · right; right; right; apply char_eq_of_toNat; rw [char_ofNat_toNat (by omega), h]; rfl

theorem toUpper_of_upper_AD {a : Char} (h2 : a ≤ 'D') : a.toUpper = a := by
  rw [char_le_toNat] at h2
  have h2' : a.toNat ≤ 68 := h2
  unfold Char.toUpper
  rw [if_neg (by omega)]

theorem toLower_not_upper (c : Char) : (Char.toLower c).isUpper = false := by
  unfold Char.toLower
  dsimp only
  split
  · next h =>
    have hofn : (Char.ofNat (c.toNat + 32)).toNat = c.toNat + 32 := char_ofNat_toNat (by omega)
    rw [Bool.eq_false_iff]
    intro hup
    rw [char_isUpper_iff, hofn] at hup
    omega
  · next h =>
    rw [Bool.eq_false_iff]
    intro hup
    rw [char_isUpper_iff] at hup
    exact h hup

/- ------------------------------------------------------------------ -/
/- String utility lemmas                                               -/
/- ------------------------------------------------------------------ -/

theorem rstrip_eq_rdrop (l : PyStr) : rstrip l = List.rdropWhile isSpaceChar l := rfl

theorem rstrip_idem (l : PyStr) : rstrip (rstrip l) = rstrip l := by
  rw [rstrip_eq_rdrop, rstrip_eq_rdrop]
  exact List.rdropWhile_idempotent _ _

theorem mem_lstrip {x : Char} {l : PyStr} (h : x ∈ lstrip l) : x ∈ l :=
  (List.dropWhile_sublist _).mem h

theorem mem_rstrip {x : Char} {l : PyStr} (h : x ∈ rstrip l) : x ∈ l := by
  rw [rstrip, List.mem_reverse] at h
  rw [← List.mem_reverse]
  exact (List.dropWhile_sublist _).mem h

theorem mem_strip {x : Char} {l : PyStr} (h : x ∈ strip l) : x ∈ l :=
  mem_rstrip (mem_lstrip h)

theorem rstrip_append (l₁ l₂ : PyStr) (h : rstrip l₂ ≠ []) :
    rstrip (l₁ ++ l₂) = l₁ ++ rstrip l₂ := by
  have h2 : l₂.reverse.dropWhile isSpaceChar ≠ [] := by
    intro hc
    apply h
    simp [rstrip, hc]
  show ((l₁ ++ l₂).reverse.dropWhile isSpaceChar).reverse = l₁ ++ rstrip l₂
  rw [List.reverse_append, List.dropWhile_append,
    if_neg (by simpa [List.isEmpty_iff] using h2)]
  simp [rstrip]

theorem lstrip_cons_space {c : Char} (h : isSpaceChar c = true) (t : PyStr) :
    lstrip (c :: t) = lstrip t := by
  simp [lstrip, List.dropWhile_cons, h]

theorem lstrip_cons_not {c : Char} (h : isSpaceChar c = false) (t : PyStr) :
    lstrip (c :: t) = c :: t := by
  simp [lstrip, List.dropWhile_cons, h]

/- Projections of `create_question` (structure literal). -/

theorem create_question_question_text (n : ℕ) (f : PyStr) (o : List (Char × PyStr))
    (c : Option Char) (s : Option PyStr) (src : PyStr) :
    (create_question n f o c s src).question_text = clean_text f := rfl

theorem create_question_options (n : ℕ) (f : PyStr) (o : List (Char × PyStr))
    (c : Option Char) (s : Option PyStr) (src : PyStr) :
    (create_question n f o c s src).options = o := rfl

theorem create_question_solution (n : ℕ) (f : PyStr) (o : List (Char × PyStr))
    (c : Option Char) (s : Option PyStr) (src : PyStr) :
    (create_question n f o c s src).solution = s := rfl

/- ------------------------------------------------------------------ -/
/- Shape of every promoted question                                    -/
/- ------------------------------------------------------------------ -/

/-- Every question emitted by the scanner passed the promotion check: it has at
least two options, and its text is `clean_text` of a header that was non-empty
after stripping. -/
theorem parseLoopF_promoted (src : PyStr) : ∀ (fuel : ℕ) (ls : List PyStr)
    (res : List Question × ℕ), parseLoopF src fuel ls = some res → ∀ q ∈ res.1,
    2 ≤ q.options.length ∧ ∃ w, strip w ≠ [] ∧ q.question_text = clean_text (strip w) := by
  intro fuel
  induction fuel with
  | zero => intro ls res h; simp [parseLoopF] at h
  | succ fuel ih =>
    intro ls res h
    match ls with
    | [] =>
      simp only [parseLoopF, Option.some_inj] at h
      intro q hq
      rw [← h] at hq
      simp at hq
    | l :: rest =>
      simp only [parseLoopF] at h
      split at h
      · exact ih rest res h
      · split at h
        · exact ih rest res h
        · split at h
          · exact absurd h (by simp)
          · next qs heq =>
            split at h
            · split at h
              · next hcond =>
                rw [Option.some_inj] at h
                intro q hq
                rw [← h] at hq
                rcases List.mem_cons.mp hq with hq | hq
                · subst hq
                  refine ⟨by simpa [create_question_options] using hcond.2, ?_⟩
                  exact ⟨_, hcond.1, create_question_question_text _ _ _ _ _ _⟩
                · exact ih _ qs heq q hq
              · rw [Option.some_inj] at h
                intro q hq
                rw [← h] at hq
                exact ih _ qs heq q hq
            · split at h
              · next hcond =>
                rw [Option.some_inj] at h
                intro q hq
                rw [← h] at hq
                rcases List.mem_cons.mp hq with hq | hq
                · subst hq
                  refine ⟨by simpa [create_question_options] using hcond.2, ?_⟩
                  exact ⟨_, hcond.1, create_question_question_text _ _ _ _ _ _⟩
                · exact ih _ qs heq q hq
              · rw [Option.some_inj] at h
                intro q hq
                rw [← h] at hq
                exact ih _ qs heq q hq

/-- C1 (corrected).  The original claim also asserted that `question_text` is
non-empty after trimming; `C1_counterexample` refutes that: the promotion
check tests the header before `create_question` applies `clean_text`, which
can erase an exam tag that makes up the whole header.  Amended claim: every
emitted Question has at least 2 options, and its `question_text` is
`clean_text` of a header that was non-empty after trimming (the cleaned text
itself may be empty). -/
theorem C1_theorem (text source_file : PyStr) :
    ∀ q ∈ parse_questions_from_text text source_file,
      2 ≤ q.options.length ∧ ∃ w, strip w ≠ [] ∧ q.question_text = clean_text (strip w) := by
  intro q hq
  have h := Option.some_get (parseLoopF_isSome source_file ((splitNl text).length + 1)
    (splitNl text) (Nat.lt_succ_self _))
  exact parseLoopF_promoted source_file _ _ _ h.symm q hq

/-- C1 counterexample: on this input the single emitted Question has an empty
`question_text` (the header "NET 12-Jan-2020" is erased by the exam-tag
removal of `clean_text`), refuting the claim as stated. -/
theorem C1_counterexample :
    ¬ ∀ q ∈ parse_questions_from_text (pstr "1. NET 12-Jan-2020\nA. x\nB. y") (pstr ""),
        2 ≤ q.options.length ∧ strip q.question_text ≠ [] := by
  decide

/- ------------------------------------------------------------------ -/
/- C2: option labels                                                   -/
/- ------------------------------------------------------------------ -/

theorem char_AD_cases {a : Char} (h1 : 'A' ≤ a) (h2 : a ≤ 'D') :
    a = 'A' ∨ a = 'B' ∨ a = 'C' ∨ a = 'D' := by
  rw [char_le_toNat] at h1 h2
  have h1' : 65 ≤ a.toNat := h1
  have h2' : a.toNat ≤ 68 := h2
  have hc : a.toNat = 65 ∨ a.toNat = 66 ∨ a.toNat = 67 ∨ a.toNat = 68 := by omega
  rcases hc with h | h | h | h
  · left; exact char_eq_of_toNat _ _ (by rw [h]; rfl)
  · right; left; exact char_eq_of_toNat _ _ (by rw [h]; rfl)
  · right; right; left; exact char_eq_of_toNat _ _ (by rw [h]; rfl)
  · right; right; right; exact char_eq_of_toNat _ _ (by rw [h]; rfl)

/-- Every label captured by `detect_option` is one of the uppercase letters
A-D (the capture groups are `[A-D]`/`[a-d]` and the label is upper-cased). -/
theorem detect_option_label {l : PyStr} {r : Char × PyStr × PyStr}
    (h : detect_option l = some r) : r.1 = 'A' ∨ r.1 = 'B' ∨ r.1 = 'C' ∨ r.1 = 'D' := by
  simp only [detect_option] at h
  split at h
  · exact absurd h (by simp)
  · split at h
    · next a sep rest =>
      split at h
      · next hcond =>
        simp only [Bool.and_eq_true, decide_eq_true_eq] at hcond
        rw [Option.some_inj] at h
        rw [← h]
        have := toUpper_of_upper_AD hcond.1.2
        rw [this]
        exact char_AD_cases hcond.1.1 hcond.1.2
      · split at h
        · next hcond =>
          simp only [Bool.and_eq_true, decide_eq_true_eq] at hcond
          rw [Option.some_inj] at h
          rw [← h]
          exact toUpper_of_lower_ad hcond.1.1 hcond.1.2
        · split at h
          · next hcond =>
            simp only [Bool.and_eq_true, decide_eq_true_eq] at hcond
            rw [Option.some_inj] at h
            rw [← h]
            have := toUpper_of_upper_AD hcond.1.2
            rw [this]
            exact char_AD_cases hcond.1.1 hcond.1.2
          · split at h
            · next hcond =>
              simp only [Bool.and_eq_true, decide_eq_true_eq] at hcond
              rw [Option.some_inj] at h
              rw [← h]
              exact toUpper_of_lower_ad hcond.1.1 hcond.1.2
            · exact absurd h (by simp)
    · exact absurd h (by simp)

theorem optionsLoopF_labels : ∀ (fuel : ℕ) (ls : List PyStr)
    (r : List (Char × PyStr) × Option Char × List PyStr), optionsLoopF fuel ls = some r →
    ∀ o ∈ r.1, o.1 = 'A' ∨ o.1 = 'B' ∨ o.1 = 'C' ∨ o.1 = 'D' := by
  intro fuel
  induction fuel with
  | zero => intro ls r h; simp [optionsLoopF] at h
  | succ fuel ih =>
    intro ls r h
    match ls with
    | [] =>
      simp only [optionsLoopF, Option.some_inj] at h
      intro o ho; rw [← h] at ho; simp at ho
    | l :: rest =>
      simp only [optionsLoopF] at h
      split at h
      · exact ih rest r h
      · split at h
        · rw [Option.some_inj] at h; intro o ho; rw [← h] at ho; simp at ho
        · split at h
          · rw [Option.some_inj] at h; intro o ho; rw [← h] at ho; simp at ho
          · split at h
            · next olab heq =>
              split at h
              · next r' heq2 =>
                rw [Option.some_inj] at h
                intro o ho
                rw [← h] at ho
                rcases List.mem_cons.mp ho with ho | ho
                · subst ho
                  simpa using detect_option_label heq
                · exact ih _ r' heq2 o ho
              · exact absurd h (by simp)
            · exact ih rest r h

theorem parseLoopF_labels (src : PyStr) : ∀ (fuel : ℕ) (ls : List PyStr)
    (res : List Question × ℕ), parseLoopF src fuel ls = some res → ∀ q ∈ res.1,
    ∀ o ∈ q.options, o.1 = 'A' ∨ o.1 = 'B' ∨ o.1 = 'C' ∨ o.1 = 'D' := by
  intro fuel
  induction fuel with
  | zero => intro ls res h; simp [parseLoopF] at h
  | succ fuel ih =>
    intro ls res h
    match ls with
    | [] =>
      simp only [parseLoopF, Option.some_inj] at h
      intro q hq; rw [← h] at hq; simp at hq
    | l :: rest =>
      simp only [parseLoopF] at h
      split at h
      · exact ih rest res h
      · split at h
        · exact ih rest res h
        · split at h
          · exact absurd h (by simp)
          · next qs heq =>
            have hopts : ∀ o ∈ (optionsLoop (headerLoop rest).2).1,
                o.1 = 'A' ∨ o.1 = 'B' ∨ o.1 = 'C' ∨ o.1 = 'D' := by
              have hsome := Option.some_get (optionsLoopF_isSome
                ((headerLoop rest).2.length + 1) (headerLoop rest).2 (Nat.lt_succ_self _))
              exact optionsLoopF_labels _ _ _ hsome.symm
            split at h <;> split at h <;> rw [Option.some_inj] at h <;> intro q hq <;>
              rw [← h] at hq
            · rcases List.mem_cons.mp hq with hq | hq
              · subst hq
                intro o ho
                exact hopts o (by simpa [create_question_options] using ho)
              · exact ih _ qs heq q hq
            · exact ih _ qs heq q hq
            · rcases List.mem_cons.mp hq with hq | hq
              · subst hq
                intro o ho
                exact hopts o (by simpa [create_question_options] using ho)
              · exact ih _ qs heq q hq
            · exact ih _ qs heq q hq

/-- C2 (corrected).  The original claim also asserted that no label repeats
within one Question's options; `C2_counterexample` refutes that: repeated
labels are appended as separate entries.  Amended claim: every option label of
every emitted Question is one of the uppercase letters A-D, but the same label
may occur several times in one options list. -/
theorem C2_theorem (text source_file : PyStr) :
    ∀ q ∈ parse_questions_from_text text source_file, ∀ o ∈ q.options,
      o.1.isUpper = true ∧ (o.1 = 'A' ∨ o.1 = 'B' ∨ o.1 = 'C' ∨ o.1 = 'D') := by
  intro q hq o ho
  have h := Option.some_get (parseLoopF_isSome source_file ((splitNl text).length + 1)
    (splitNl text) (Nat.lt_succ_self _))
  have hm := parseLoopF_labels source_file _ _ _ h.symm q hq o ho
  refine ⟨?_, hm⟩
  rcases hm with h | h | h | h <;> rw [h] <;> decide

/-- C2 counterexample: a question whose two option lines both carry the label
`A` is emitted with the duplicate labels kept, refuting uniqueness. -/
theorem C2_counterexample :
    ¬ ∀ q ∈ parse_questions_from_text (pstr "1. Pick one\nA. first\nA. second") (pstr ""),
        (∀ o ∈ q.options, o.1.isUpper = true) ∧ (q.options.map Prod.fst).Nodup := by
  decide

/- ------------------------------------------------------------------ -/
/- C3 and C4                                                           -/
/- ------------------------------------------------------------------ -/

/-- C3: appending a block with a single option line to a document leaves the
emitted questions unchanged (the block is dropped, producing no Question) and
increases the rejected-block count by exactly 1; no error is raised (the
parser is a total function). -/
theorem C3_theorem :
    parse_questions_from_text (pstr "1. Good?\nA. x\nB. y\n2. Bad?\nA. only") (pstr "") =
      parse_questions_from_text (pstr "1. Good?\nA. x\nB. y") (pstr "") ∧
    (parse_questions_from_text (pstr "1. Good?\nA. x\nB. y\n2. Bad?\nA. only")
      (pstr "")).length = 1 ∧
    rejected_count (pstr "1. Good?\nA. x\nB. y\n2. Bad?\nA. only") (pstr "") =
      rejected_count (pstr "1. Good?\nA. x\nB. y") (pstr "") + 1 := by
  decide

/-- C4: the scanner always terminates with a result — the fuel bound
`length + 1` is never exhausted, and `parse_questions_from_text` is the first
component of that result (a possibly empty list; the embedding is total, the
only Python operation with an exception path, `int()` on the digit capture,
is wrapped in `try/except` in the source and cannot fire on `\d+` captures). -/
theorem C4_theorem (text source_file : PyStr) :
    ∃ res : List Question × ℕ,
      parseLoopF source_file ((splitNl text).length + 1) (splitNl text) = some res ∧
      parse_questions_from_text text source_file = res.1 :=
  ⟨parse_result text source_file, (Option.some_get _).symm, rfl⟩

/- ------------------------------------------------------------------ -/
/- C5: pattern priority in `detect_question_start`                     -/
/- ------------------------------------------------------------------ -/

theorem digit_not_space {c : Char} (h : c.isDigit = true) : isSpaceChar c = false := by
  rw [Bool.eq_false_iff]
  intro hs
  simp only [isSpaceChar, Bool.or_eq_true, decide_eq_true_eq] at hs
  rcases hs with ((((h1 | h1) | h1) | h1) | h1) | h1 <;> subst h1 <;>
    exact absurd h (by decide)

theorem strip_q_line (ds t : PyStr) (ht : strip t ≠ []) :
    strip ('Q' :: '.' :: ds ++ ' ' :: t) = 'Q' :: '.' :: ds ++ ' ' :: rstrip t := by
  have hrt : rstrip t ≠ [] := by
    intro hc
    apply ht
    rw [strip, hc]
    rfl
  have happ : ('Q' :: '.' :: ds ++ ' ' :: t) = ('Q' :: '.' :: ds ++ [' ']) ++ t := by simp
  rw [strip, happ, rstrip_append _ _ hrt]
  have h2 : ('Q' :: '.' :: ds ++ [' ']) ++ rstrip t = 'Q' :: ('.' :: ds ++ ' ' :: rstrip t) := by
    simp
  rw [h2, lstrip_cons_not (by decide)]
  simp

theorem strip_space_rstrip (t : PyStr) (ht : rstrip t ≠ []) :
    strip (' ' :: rstrip t) = strip t := by
  have h1 : (' ' :: rstrip t) = [' '] ++ rstrip t := rfl
  rw [strip, h1, rstrip_append _ _ (by rw [rstrip_idem]; exact ht), rstrip_idem]
  show lstrip (' ' :: rstrip t) = strip t
  rw [lstrip_cons_space (by decide)]
  rfl

/-- C5: the three question-start patterns are tried in the fixed priority
order `<digits>)`, `Q.<digits>`, `<digits>.` and exactly the first match
fires; in particular every line of the form `Q.<digits> <text>` is classified
by the `q_dot` pattern, returning the digits after `Q` — it can never be
captured by a digit-first pattern, whose recognizers reject a `Q`-initial
line. -/
theorem C5_theorem :
    (∀ l r, matchParen (strip l) = some r → detect_question_start l = some r) ∧
    (∀ l r, matchParen (strip l) = none → matchQDot (strip l) = some r →
      detect_question_start l = some r) ∧
    (∀ l, matchParen (strip l) = none → matchQDot (strip l) = none →
      detect_question_start l = matchDot (strip l)) ∧
    (∀ ds t : PyStr, ds ≠ [] → (∀ c ∈ ds, c.isDigit = true) → strip t ≠ [] →
      detect_question_start ('Q' :: '.' :: ds ++ ' ' :: t) =
        some (natOfDigits ds, strip t, pstr "q_dot")) := by
  refine ⟨?_, ?_, ?_, ?_⟩
  · intro l r h
    have hne : strip l ≠ [] := by
      intro hc
      rw [hc] at h
      simp [matchParen] at h
    simp only [detect_question_start, if_neg hne, h]
  · intro l r h1 h2
    have hne : strip l ≠ [] := by
      intro hc
      rw [hc] at h2
      simp [matchQDot] at h2
    simp only [detect_question_start, if_neg hne, h1, h2]
  · intro l h1 h2
    by_cases hne : strip l = []
    · have e1 : detect_question_start l = none := by simp [detect_question_start, hne]
      rw [e1, hne]
      rfl
    · simp only [detect_question_start, if_neg hne, h1, h2]
  · intro ds t hds hdig ht
    obtain ⟨d, ds', rfl⟩ : ∃ d ds', ds = d :: ds' := by
      cases ds
      · exact absurd rfl hds
      · exact ⟨_, _, rfl⟩
    have hrt : rstrip t ≠ [] := by
      intro hc
      apply ht
      rw [strip, hc]
      rfl
    obtain ⟨x, xs, hx⟩ : ∃ x xs, rstrip t = x :: xs := by
      cases h : rstrip t
      · exact absurd h hrt
      · exact ⟨_, _, rfl⟩
    have hstrip := strip_q_line (d :: ds') t ht
    have hd : d.isDigit = true := hdig d (by simp)
    have hparen : matchParen ('Q' :: '.' :: (d :: ds') ++ ' ' :: rstrip t) = none := rfl
    have htake : ((d :: ds') ++ ' ' :: rstrip t).takeWhile Char.isDigit = d :: ds' := by
      have h1 : ((d :: ds') ++ (' ' :: rstrip t)).takeWhile Char.isDigit =
          (d :: ds') ++ (' ' :: rstrip t).takeWhile Char.isDigit :=
        List.takeWhile_append_of_pos (by intro a ha; exact hdig a ha)
      rw [h1, List.takeWhile_cons_of_neg (by decide)]
      simp
    have hdrop : ((d :: ds') ++ ' ' :: rstrip t).dropWhile Char.isDigit = ' ' :: rstrip t := by
      have h1 : ((d :: ds') ++ (' ' :: rstrip t)).dropWhile Char.isDigit =
          (' ' :: rstrip t).dropWhile Char.isDigit :=
        List.dropWhile_append_of_pos (by intro a ha; exact hdig a ha)
      rw [h1, List.dropWhile_cons_of_neg (by decide)]
    have hq : matchQDot ('Q' :: '.' :: (d :: ds') ++ ' ' :: rstrip t) =
        some (natOfDigits (d :: ds'), strip t, pstr "q_dot") := by
      have hstep : matchQDot ('Q' :: '.' :: (d :: ds') ++ ' ' :: rstrip t) =
          (if (((d :: ds' ++ ' ' :: rstrip t).dropWhile isSpaceChar).takeWhile
              Char.isDigit) = [] then none
           else (wsPlusRest (((d :: ds' ++ ' ' :: rstrip t).dropWhile
              isSpaceChar).dropWhile Char.isDigit)).map
             fun w => (natOfDigits (((d :: ds' ++ ' ' :: rstrip t).dropWhile
                isSpaceChar).takeWhile Char.isDigit), w, pstr "q_dot")) := rfl
      rw [hstep]
      simp only [List.cons_append] at htake hdrop ⊢
      rw [List.dropWhile_cons_of_neg (by simp [digit_not_space hd])]
      rw [htake, hdrop, if_neg (by simp), hx]
      simp only [wsPlusRest]
      rw [if_pos (by decide), ← hx, strip_space_rstrip t hrt]
      rfl
    have hne : strip ('Q' :: '.' :: (d :: ds') ++ ' ' :: t) ≠ [] := by
      rw [hstrip]
      simp
    simp only [detect_question_start, if_neg hne, hstrip, hparen, hq]
    simp

/-- C5 witness: a concrete `Q.`-form line resolved by the q_dot pattern. -/
theorem C5_witness :
    detect_question_start ('Q' :: '.' :: pstr "12" ++ ' ' :: pstr "What is this?") =
      some (natOfDigits (pstr "12"), strip (pstr "What is this?"), pstr "q_dot") :=
  C5_theorem.2.2.2 (pstr "12") (pstr "What is this?") (by decide) (by decide) (by decide)

/- ------------------------------------------------------------------ -/
/- C6: subject classification                                          -/
/- ------------------------------------------------------------------ -/

theorem firstMax_isSome (a : PyStr × ℕ) (xs : List (PyStr × ℕ)) :
    (firstMax (a :: xs)).isSome := by
  simp only [firstMax]
  split
  · simp
  · split <;> simp

theorem firstMax_none {l : List (PyStr × ℕ)} (h : firstMax l = none) : l = [] := by
  cases l with
  | nil => rfl
  | cons a xs =>
    have := firstMax_isSome a xs
    rw [h] at this
    simp at this

/-- Python `max(scores, key=scores.get)` over an ordered association list
returns the first entry attaining the maximal value: the result is a member,
its value bounds all values, and every entry strictly before it has a strictly
smaller value. -/
theorem firstMax_spec : ∀ (l : List (PyStr × ℕ)) (x : PyStr × ℕ), firstMax l = some x →
    x ∈ l ∧ (∀ y ∈ l, y.2 ≤ x.2) ∧
    ∃ pre suf, l = pre ++ x :: suf ∧ ∀ y ∈ pre, y.2 < x.2 := by
  intro l
  induction l with
  | nil => intro x h; simp [firstMax] at h
  | cons a xs ih =>
    intro x h
    simp only [firstMax] at h
    split at h
    · next hnone =>
      rw [Option.some_inj] at h
      subst h
      have hxs : xs = [] := firstMax_none hnone
      subst hxs
      exact ⟨by simp, by simp, [], [], by simp, by simp⟩
    · next y hy =>
      split at h
      · next hgt =>
        rw [Option.some_inj] at h
        subst h
        obtain ⟨hmem, hmax, pre, suf, hdec, hpre⟩ := ih y hy
        refine ⟨by simp [hmem], ?_, a :: pre, suf, by simp [hdec], ?_⟩
        · intro z hz
          rcases List.mem_cons.mp hz with hz | hz
          · subst hz; omega
          · exact hmax z hz
        · intro z hz
          rcases List.mem_cons.mp hz with hz | hz
          · subst hz; omega
          · exact hpre z hz
      · next hng =>
        rw [Option.some_inj] at h
        subst h
        obtain ⟨hmem, hmax, _, _, _, _⟩ := ih y hy
        refine ⟨by simp, ?_, [], xs, by simp, by simp⟩
        intro z hz
        rcases List.mem_cons.mp hz with hz | hz
        · subst hz; exact le_refl _
        · have h1 := hmax z hz
          have h2 : ¬ y.2 > a.2 := hng
          omega

/-- C6: `classify_subject` scores each subject by the count of its keywords
occurring as substrings of the lowercased question-plus-options text; if every
subject scores zero the result is `"general"`, otherwise the result is the
first subject (in vocabulary declaration order, physics first) whose score is
maximal — every earlier subject scores strictly less and no subject scores
more. -/
theorem C6_theorem (question_text : PyStr) (options : List (Char × PyStr)) :
    ((∀ p ∈ subject_keywords,
        subjectScore p.2 (candidateText question_text options) = 0) →
      classify_subject question_text options = pstr "general") ∧
    ((∃ p ∈ subject_keywords,
        0 < subjectScore p.2 (candidateText question_text options)) →
      ∃ pre x suf,
        (subject_keywords.map fun p =>
          (p.1, subjectScore p.2 (candidateText question_text options))) =
            pre ++ x :: suf ∧
        classify_subject question_text options = x.1 ∧
        (∀ y ∈ pre, y.2 < x.2) ∧
        (∀ p ∈ subject_keywords,
          subjectScore p.2 (candidateText question_text options) ≤ x.2)) ∧
    subject_keywords.map Prod.fst =
      [pstr "physics", pstr "chemistry", pstr "biology", pstr "mathematics",
        pstr "english"] := by
  refine ⟨?_, ?_, by decide⟩
  · intro hz
    simp only [classify_subject]
    split
    · next best hbest =>
      obtain ⟨hmem, _, _⟩ := firstMax_spec _ _ hbest
      rcases List.mem_map.mp hmem with ⟨p, hp, rfl⟩
      rw [if_neg]
      simp [hz p hp]
    · rfl
  · rintro ⟨p0, hp0, hpos⟩
    simp only [classify_subject]
    split
    · next best hbest =>
      obtain ⟨hmem, hmax, pre, suf, hdec, hpre⟩ := firstMax_spec _ _ hbest
      have hb0 : subjectScore p0.2 (candidateText question_text options) ≤ best.2 :=
        hmax (p0.1, subjectScore p0.2 (candidateText question_text options))
          (List.mem_map_of_mem _ hp0)
      rw [if_pos (by omega)]
      refine ⟨pre, best, suf, hdec, rfl, hpre, ?_⟩
      intro p hp
      exact hmax _ (List.mem_map_of_mem _ hp)
    · next hn =>
      exfalso
      have := List.map_eq_nil_iff.mp (firstMax_none hn)
      rw [this] at hp0
      simp at hp0

/-- C6 witness: a text containing no vocabulary keyword classifies as
`"general"`. -/
theorem C6_witness : classify_subject (pstr "no cue words here at all") [] = pstr "general" :=
  (C6_theorem (pstr "no cue words here at all") []).1 (by decide)

/- ------------------------------------------------------------------ -/
/- C10: keywords containing uppercase letters never match              -/
/- ------------------------------------------------------------------ -/

theorem isPrefixOf_mem {pat s : PyStr} (h : pat.isPrefixOf s = true) : ∀ c ∈ pat, c ∈ s := by
  induction pat generalizing s with
  | nil => simp
  | cons a t ih =>
    cases s with
    | nil => simp [List.isPrefixOf] at h
    | cons b u =>
      simp only [List.isPrefixOf, Bool.and_eq_true] at h
      intro c hc
      rcases List.mem_cons.mp hc with hc | hc
      · subst hc
        have hab : c = b := by simpa using h.1
        simp [hab]
      · simp [ih h.2 c hc]

theorem isSubstr_mem {pat s : PyStr} (h : isSubstr pat s = true) : ∀ c ∈ pat, c ∈ s := by
  induction s with
  | nil =>
    simp only [isSubstr, decide_eq_true_eq] at h
    subst h
    simp
  | cons a t ih =>
    simp only [isSubstr, Bool.or_eq_true] at h
    rcases h with h | h
    · exact isPrefixOf_mem h
    · intro c hc
      simp [ih h c hc]

/-- The candidate text scored by `classify_subject` is built from lowercased
pieces (and spaces), so it never contains an uppercase ASCII letter. -/
theorem candidateText_not_upper (question_text : PyStr) (options : List (Char × PyStr)) :
    ∀ c ∈ candidateText question_text options, c.isUpper = false := by
  suffices h : ∀ (opts : List (Char × PyStr)) (acc : PyStr),
      (∀ c ∈ acc, c.isUpper = false) →
      ∀ c ∈ opts.foldl (fun acc o => acc ++ ' ' :: pyLower o.2) acc, c.isUpper = false by
    apply h
    intro c hc
    rcases List.mem_map.mp hc with ⟨d, _, rfl⟩
    exact toLower_not_upper d
  intro opts
  induction opts with
  | nil => intro acc hacc; simpa using hacc
  | cons o os ih =>
    intro acc hacc
    simp only [List.foldl_cons]
    apply ih
    intro c hc
    rcases List.mem_append.mp hc with hc | hc
    · exact hacc c hc
    · rcases List.mem_cons.mp hc with hc | hc
      · subst hc; decide
      · rcases List.mem_map.mp hc with ⟨d, _, rfl⟩
        exact toLower_not_upper d

/-- C10: a keyword containing an uppercase letter can never occur as a
substring of the candidate text (which is lowercased before the test), so it
never contributes to any subject's score; the vocabulary does contain such
keywords (`DNA`/`RNA` in biology, `pH` in chemistry), and a question whose
only subject cues are such keywords classifies as `"general"`. -/
theorem C10_theorem :
    (∀ (kw question_text : PyStr) (options : List (Char × PyStr)),
      (∃ c ∈ kw, c.isUpper = true) →
      isSubstr kw (candidateText question_text options) = false) ∧
    (∃ p ∈ subject_keywords, p.1 = pstr "biology" ∧ pstr "DNA" ∈ p.2 ∧ pstr "RNA" ∈ p.2 ∧
      (∃ c ∈ pstr "DNA", c.isUpper = true) ∧ (∃ c ∈ pstr "RNA", c.isUpper = true)) ∧
    (∃ p ∈ subject_keywords, p.1 = pstr "chemistry" ∧ pstr "pH" ∈ p.2 ∧
      (∃ c ∈ pstr "pH", c.isUpper = true)) ∧
    classify_subject (pstr "DNA vs RNA") [] = pstr "general" := by
  refine ⟨?_, by decide, by decide, by decide⟩
  rintro kw question_text options ⟨c, hc, hup⟩
  rw [Bool.eq_false_iff]
  intro hsub
  have hmem := isSubstr_mem hsub c hc
  have hfalse := candidateText_not_upper question_text options c hmem
  rw [hup] at hfalse
  exact absurd hfalse (by simp)

/-- C10 witness: the biology keyword `DNA` fails the substring test even when
the question mentions DNA. -/
theorem C10_witness :
    isSubstr (pstr "DNA") (candidateText (pstr "structure of DNA") []) = false :=
  C10_theorem.1 (pstr "DNA") (pstr "structure of DNA") [] ⟨'D', by decide, by decide⟩

/- ------------------------------------------------------------------ -/
/- C7: difficulty score range and band monotonicity                    -/
/- ------------------------------------------------------------------ -/

theorem pyRound1_tenth (q : ℚ) : ∃ k : ℤ, pyRound1 q = (k : ℚ) / 10 := ⟨_, rfl⟩

theorem clamp_tenth (k : ℤ) : ∃ m : ℤ, max 1 (min 10 ((k : ℚ) / 10)) = (m : ℚ) / 10 := by
  rcases le_total ((k : ℚ) / 10) 1 with h | h
  · refine ⟨10, ?_⟩
    rw [min_eq_right (le_trans h (by norm_num)), max_eq_left h]
    norm_num
  · rcases le_total ((k : ℚ) / 10) 10 with h2 | h2
    · refine ⟨k, ?_⟩
      rw [min_eq_right h2, max_eq_right h]
    · refine ⟨100, ?_⟩
      rw [min_eq_left h2, max_eq_right (by norm_num)]
      norm_num

theorem bandIndex_easy : bandIndex (pstr "easy") = 0 := rfl

theorem bandIndex_medium : bandIndex (pstr "medium") = 1 := rfl

theorem bandIndex_hard : bandIndex (pstr "hard") = 2 := rfl

theorem bandIndex_expert : bandIndex (pstr "expert") = 3 := rfl

theorem bandIndex_level (x : ℚ) : bandIndex (get_difficulty_level x) =
    (if 7 / 2 ≤ x then 1 else 0) + (if 13 / 2 ≤ x then 1 else 0) +
      (if 17 / 2 ≤ x then 1 else 0) := by
  simp only [get_difficulty_level]
  split_ifs <;>
    simp only [bandIndex_easy, bandIndex_medium, bandIndex_hard, bandIndex_expert] <;>
    first | rfl | omega | linarith

/-- C7: `calculate_difficulty_score` always yields a value in `[1, 10]` that
is a multiple of one tenth (rounded to one decimal); `get_difficulty_level`
is monotone with respect to the band order easy < medium < hard < expert, and
the bands are the non-overlapping half-open intervals
`[1, 3.5)`, `[3.5, 6.5)`, `[6.5, 8.5)`, `[8.5, 10]` (the last closed above by
the clamp). -/
theorem C7_theorem :
    (∀ (question_text : PyStr) (options : List PyStr),
      1 ≤ calculate_difficulty_score question_text options ∧
      calculate_difficulty_score question_text options ≤ 10 ∧
      ∃ k : ℤ, calculate_difficulty_score question_text options = (k : ℚ) / 10) ∧
    (∀ x y : ℚ, x ≤ y →
      bandIndex (get_difficulty_level x) ≤ bandIndex (get_difficulty_level y)) ∧
    (∀ x : ℚ,
      (x < 7 / 2 → get_difficulty_level x = pstr "easy") ∧
      (7 / 2 ≤ x → x < 13 / 2 → get_difficulty_level x = pstr "medium") ∧
      (13 / 2 ≤ x → x < 17 / 2 → get_difficulty_level x = pstr "hard") ∧
      (17 / 2 ≤ x → get_difficulty_level x = pstr "expert")) ∧
    (pstr "easy" ≠ pstr "medium" ∧ pstr "medium" ≠ pstr "hard" ∧
      pstr "hard" ≠ pstr "expert" ∧ pstr "easy" ≠ pstr "hard" ∧
      pstr "easy" ≠ pstr "expert" ∧ pstr "medium" ≠ pstr "expert") := by
  refine ⟨?_, ?_, ?_, by decide⟩
  · intro question_text options
    obtain ⟨k, hk⟩ := pyRound1_tenth (difficultyRaw question_text options)
    simp only [calculate_difficulty_score, hk]
    exact ⟨le_max_left _ _, max_le (by norm_num) (min_le_left _ _), clamp_tenth k⟩
  · intro x y hxy
    rw [bandIndex_level, bandIndex_level]
    have h1 : (if (7 : ℚ) / 2 ≤ x then (1 : ℕ) else 0) ≤ (if (7 : ℚ) / 2 ≤ y then 1 else 0) := by
      split_ifs with ha hb
      · omega
      · exact absurd (le_trans ha hxy) hb
      · omega
      · omega
    have h2 : (if (13 : ℚ) / 2 ≤ x then (1 : ℕ) else 0) ≤
        (if (13 : ℚ) / 2 ≤ y then 1 else 0) := by
      split_ifs with ha hb
      · omega
      · exact absurd (le_trans ha hxy) hb
      · omega
      · omega
    have h3 : (if (17 : ℚ) / 2 ≤ x then (1 : ℕ) else 0) ≤
        (if (17 : ℚ) / 2 ≤ y then 1 else 0) := by
      split_ifs with ha hb
      · omega
      · exact absurd (le_trans ha hxy) hb
      · omega
      · omega
    omega
  · intro x
    refine ⟨?_, ?_, ?_, ?_⟩
    · intro h
      simp [get_difficulty_level, h]
    · intro h1 h2
      simp only [get_difficulty_level]
      rw [if_neg (by linarith), if_pos h2]
    · intro h1 h2
      simp only [get_difficulty_level]
      rw [if_neg (by linarith), if_neg (by linarith), if_pos h2]
    · intro h
      simp only [get_difficulty_level]
      rw [if_neg (by linarith), if_neg (by linarith), if_neg (by linarith)]

/-- C7 witness: the range facts at a concrete question, and the band of a
smaller score below the band of a larger one. -/
theorem C7_witness :
    (1 ≤ calculate_difficulty_score (pstr "What is charge?") [] ∧
      calculate_difficulty_score (pstr "What is charge?") [] ≤ 10 ∧
      ∃ k : ℤ, calculate_difficulty_score (pstr "What is charge?") [] = (k : ℚ) / 10) ∧
    bandIndex (get_difficulty_level 2) ≤ bandIndex (get_difficulty_level 9) :=
  ⟨C7_theorem.1 (pstr "What is charge?") [], C7_theorem.2.1 2 9 (by norm_num)⟩

/- ------------------------------------------------------------------ -/
/- C8: "Answer: B" closes options and opens the solution               -/
/- ------------------------------------------------------------------ -/

theorem rstrip_cons {c : Char} (h : isSpaceChar c = false) (t : PyStr) :
    ∃ t', rstrip (c :: t) = c :: t' := by
  rw [rstrip, show (c :: t).reverse = t.reverse ++ [c] by simp, List.dropWhile_append]
  split
  · refine ⟨[], ?_⟩
    simp [List.dropWhile_cons, h]
  · exact ⟨(List.dropWhile isSpaceChar t.reverse).reverse, by simp⟩

/-- C8: a line of the form `"Answer: ..."` is never a question start (each of
the three question patterns rejects an `A`-initial line), `"Answer: B"` is a
truthy solution line capturing `"B"`, and in a full parse such a line closes
option accumulation and attaches the solution — the captured remainder with
any continuation lines space-joined — to the preceding question rather than
opening a new block. -/
theorem C8_theorem :
    (∀ s : PyStr, detect_question_start (pstr "Answer: " ++ s) = none) ∧
    detect_solution (pstr "Answer: B") = some (pstr "B") ∧
    (parse_questions_from_text
        (pstr
          "1. Which?\nA. ten\nB. twenty\nAnswer: B\nsince twenty fits\n2. Next?\nA. y\nB. n")
        (pstr "")).map (fun q => (q.question_number, q.solution)) =
      [(1, some (pstr "B since twenty fits")), (2, none)] := by
  refine ⟨?_, by decide, by decide⟩
  intro s
  have hA : pstr "Answer: " ++ s = 'A' :: (pstr "nswer: " ++ s) := rfl
  rw [hA]
  obtain ⟨t', ht'⟩ := rstrip_cons (show isSpaceChar 'A' = false by decide)
    (pstr "nswer: " ++ s)
  have hstrip : strip ('A' :: (pstr "nswer: " ++ s)) = 'A' :: t' := by
    rw [strip, ht', lstrip_cons_not (by decide)]
  simp only [detect_question_start, hstrip]
  rw [if_neg (by simp)]
  have hp : matchParen ('A' :: t') = none := rfl
  have hq : matchQDot ('A' :: t') = none := rfl
  have hd : matchDot ('A' :: t') = none := rfl
  simp [hp, hq, hd]

/- ------------------------------------------------------------------ -/
/- C9: character provenance through `clean_text`                       -/
/- ------------------------------------------------------------------ -/

theorem firstSome_mem {α β : Type} (f : α → Option β) : ∀ (l : List α) (b : β),
    firstSome f l = some b → ∃ a ∈ l, f a = some b := by
  intro l
  induction l with
  | nil => intro b h; simp [firstSome] at h
  | cons a xs ih =>
    intro b h
    simp only [firstSome] at h
    split at h
    · next hv =>
      rw [Option.some_inj] at h
      exact ⟨a, by simp, by rw [hv, h]⟩
    · obtain ⟨a', ha', hfa⟩ := ih b h
      exact ⟨a', by simp [ha'], hfa⟩

theorem starRems_mem (p : Char → Bool) : ∀ (cs : PyStr) (r : PyStr), r ∈ starRems p cs →
    ∀ c ∈ r, c ∈ cs := by
  intro cs
  induction cs with
  | nil =>
    intro r hr
    simp [starRems] at hr
    subst hr
    simp
  | cons a t ih =>
    intro r hr
    simp only [starRems] at hr
    split at hr
    · rcases List.mem_append.mp hr with hr | hr
      · exact fun c hc => List.mem_cons_of_mem _ (ih r hr c hc)
      · simp at hr
        subst hr
        exact fun c hc => hc
    · simp at hr
      subst hr
      exact fun c hc => hc

theorem optRems_mem (p : Char → Bool) : ∀ (cs : PyStr) (r : PyStr), r ∈ optRems p cs →
    ∀ c ∈ r, c ∈ cs := by
  intro cs r hr
  match cs with
  | [] =>
    simp [optRems] at hr
    subst hr
    simp
  | a :: t =>
    simp only [optRems] at hr
    split at hr
    · rcases List.mem_cons.mp hr with hr | hr
      · subst hr
        exact fun c hc => List.mem_cons_of_mem _ hc
      · simp at hr
        subst hr
        exact fun c hc => hc
    · simp at hr
      subst hr
      exact fun c hc => hc

theorem rep12Rems_mem : ∀ (cs : PyStr) (r : PyStr), r ∈ rep12Rems cs → ∀ c ∈ r, c ∈ cs := by
  intro cs r hr
  match cs with
  | [] => simp [rep12Rems] at hr
  | [a] =>
    simp only [rep12Rems] at hr
    split at hr
    · simp at hr
      subst hr
      simp
    · simp at hr
  | a :: b :: t =>
    simp only [rep12Rems] at hr
    split at hr
    · split at hr
      · rcases List.mem_cons.mp hr with hr | hr
        · subst hr
          exact fun c hc => List.mem_cons_of_mem _ (List.mem_cons_of_mem _ hc)
        · simp at hr
          subst hr
          exact fun c hc => List.mem_cons_of_mem _ hc
      · simp at hr
        subst hr
        exact fun c hc => List.mem_cons_of_mem _ hc
    · simp at hr

theorem digits4_mem {cs r : PyStr} (h : digits4 cs = some r) : ∀ c ∈ r, c ∈ cs := by
  match cs with
  | a :: b :: c' :: d :: t =>
    simp only [digits4] at h
    split at h
    · rw [Option.some_inj] at h
      subst h
      intro c hc
      simp [hc]
    · simp at h
  | [] => simp [digits4] at h
  | [a] => simp [digits4] at h
  | [a, b] => simp [digits4] at h
  | [a, b, c'] => simp [digits4] at h

theorem litPrefixCI_mem {w : String} {cs r : PyStr} (h : litPrefixCI w cs = some r) :
    ∀ c ∈ r, c ∈ cs := by
  simp only [litPrefixCI] at h
  split at h
  · rw [Option.some_inj] at h
    subst h
    exact fun c hc => List.drop_subset _ _ hc
  · simp at h

theorem litRems_mem : ∀ (cs : PyStr) (r : PyStr), r ∈ litRems cs → ∀ c ∈ r, c ∈ cs := by
  intro cs r hr
  simp only [litRems] at hr
  rcases List.mem_append.mp hr with hr | hr
  · rcases List.mem_append.mp hr with hr | hr
    · rw [Option.mem_toList, Option.mem_def] at hr
      exact litPrefixCI_mem hr
    · rw [Option.mem_toList, Option.mem_def] at hr
      exact litPrefixCI_mem hr
  · rw [Option.mem_toList, Option.mem_def] at hr
    exact litPrefixCI_mem hr

theorem closeTail_mem (cs : PyStr) : ∀ c ∈ closeTail cs, c ∈ cs := by
  have step1 : ∀ (x : PyStr) (c : Char),
      c ∈ (match x with | ')' :: r => r | r => r) → c ∈ x := by
    intro x c' hc'
    split at hc'
    · exact List.mem_cons_of_mem _ hc'
    · exact hc'
  intro c hc
  simp only [closeTail] at hc
  have h1 := step1 _ _ hc
  have h2 := (List.dropWhile_sublist _).mem h1
  exact step1 _ _ h2

theorem examTagAfterLit_mem {cs rem : PyStr} (h : examTagAfterLit cs = some rem) :
    ∀ c ∈ rem, c ∈ cs := by
  simp only [examTagAfterLit] at h
  obtain ⟨r1, hr1, h⟩ := firstSome_mem _ _ _ h
  obtain ⟨r2, hr2, h⟩ := firstSome_mem _ _ _ h
  obtain ⟨r3, hr3, h⟩ := firstSome_mem _ _ _ h
  obtain ⟨r4, hr4, h⟩ := firstSome_mem _ _ _ h
  obtain ⟨r5, hr5, h⟩ := firstSome_mem _ _ _ h
  obtain ⟨r6, hr6, h⟩ := firstSome_mem _ _ _ h
  obtain ⟨r7, hr7, h⟩ := firstSome_mem _ _ _ h
  obtain ⟨r8, hr8, h⟩ := firstSome_mem _ _ _ h
  split at h
  · next r9 h9 =>
    rw [Option.some_inj] at h
    subst h
    intro c hc
    exact starRems_mem _ _ _ hr1 c
      (starRems_mem _ _ _ hr2 c
        (starRems_mem _ _ _ hr3 c
          (optRems_mem _ _ _ hr4 c
            (rep12Rems_mem _ _ hr5 c
              (optRems_mem _ _ _ hr6 c
                (starRems_mem _ _ _ hr7 c
                  (optRems_mem _ _ _ hr8 c
                    (digits4_mem h9 c (closeTail_mem _ c hc)))))))))
  · simp at h

theorem examTagMatchEnd_mem {cs rem : PyStr} (h : examTagMatchEnd cs = some rem) :
    ∀ c ∈ rem, c ∈ cs := by
  simp only [examTagMatchEnd] at h
  obtain ⟨r1, hr1, h⟩ := firstSome_mem _ _ _ h
  obtain ⟨r2, hr2, h⟩ := firstSome_mem _ _ _ h
  obtain ⟨r3, hr3, h⟩ := firstSome_mem _ _ _ h
  intro c hc
  exact optRems_mem _ _ _ hr1 c
    (starRems_mem _ _ _ hr2 c
      (litRems_mem _ _ hr3 c (examTagAfterLit_mem h c hc)))

theorem examTagSubF_mem : ∀ (fuel : ℕ) (cs : PyStr), ∀ c ∈ examTagSubF fuel cs, c ∈ cs := by
  intro fuel
  induction fuel with
  | zero => intro cs c hc; simp only [examTagSubF] at hc; exact hc
  | succ fuel ih =>
    intro cs c hc
    match cs with
    | [] => simp only [examTagSubF] at hc; exact hc
    | d :: rest =>
      simp only [examTagSubF] at hc
      split at hc
      · next rem hrem => exact examTagMatchEnd_mem hrem c (ih rem c hc)
      · rcases List.mem_cons.mp hc with hc1 | hc1
        · simp [hc1]
        · exact List.mem_cons_of_mem _ (ih rest c hc1)

theorem squeezeAux_mem : ∀ (b : Bool) (cs : PyStr), ∀ c ∈ squeezeAux b cs, c ∈ cs := by
  intro b cs
  induction cs generalizing b with
  | nil => simp [squeezeAux]
  | cons d rest ih =>
    intro c hc
    simp only [squeezeAux] at hc
    split at hc
    · next hd =>
      split at hc
      · exact List.mem_cons_of_mem _ (ih _ c hc)
      · rcases List.mem_cons.mp hc with hc | hc
        · subst hc
          rw [← hd]
          simp
        · exact List.mem_cons_of_mem _ (ih _ c hc)
    · rcases List.mem_cons.mp hc with hc | hc
      · simp [hc]
      · exact List.mem_cons_of_mem _ (ih _ c hc)

/-- Every character of `clean_text t` comes from `t` (cleaning only deletes
characters or collapses runs of spaces into one of their members). -/
theorem clean_text_mem {t : PyStr} : ∀ c ∈ clean_text t, c ∈ t := by
  intro c hc
  exact examTagSubF_mem _ _ c (squeezeAux_mem _ _ c (mem_strip hc))

theorem mem_joinSpace {c : Char} : ∀ (parts : List PyStr), c ∈ joinSpace parts →
    c = ' ' ∨ ∃ p ∈ parts, c ∈ p := by
  intro parts
  induction parts with
  | nil => intro h; simp [joinSpace, joinSep] at h
  | cons x xs ih =>
    cases xs with
    | nil =>
      intro h
      right
      exact ⟨x, by simp, by simpa [joinSpace, joinSep] using h⟩
    | cons y rest =>
      intro h
      simp only [joinSpace, joinSep] at h
      rcases List.mem_append.mp h with h | h
      · rcases List.mem_append.mp h with h | h
        · right
          exact ⟨x, by simp, h⟩
        · left
          simpa [pstr] using h
      · rcases ih (by simpa [joinSpace] using h) with h | ⟨p, hp, hcp⟩
        · left
          exact h
        · right
          exact ⟨p, by simp [hp], hcp⟩

theorem extract_answer_mem (t : PyStr) : ∀ c ∈ (extract_answer_from_option t).1, c ∈ t := by
  simp only [extract_answer_from_option]
  split
  · intro c hc
    exact mem_rstrip (List.take_subset _ _ (mem_strip hc))
  · exact fun c hc => hc

theorem wsPlusRest_mem {t w : PyStr} (h : wsPlusRest t = some w) : ∀ c ∈ w, c ∈ t := by
  match t with
  | [] => simp [wsPlusRest] at h
  | [a] => simp [wsPlusRest] at h
  | a :: b :: rest =>
    simp only [wsPlusRest] at h
    split at h
    · rw [Option.some_inj] at h
      subst h
      exact fun c hc => mem_strip hc
    · simp at h

theorem matchParen_text_mem {l : PyStr} {r : ℕ × PyStr × PyStr}
    (h : matchParen l = some r) : ∀ c ∈ r.2.1, c ∈ l := by
  simp only [matchParen] at h
  split at h
  · simp at h
  · split at h
    · next tail heq =>
      rcases Option.map_eq_some'.mp h with ⟨w, hw, hr⟩
      intro c hc
      rw [← hr] at hc
      have h1 := wsPlusRest_mem hw c hc
      have h2 : c ∈ List.dropWhile Char.isDigit l := by
        rw [heq]
        exact List.mem_cons_of_mem _ h1
      exact (List.dropWhile_sublist _).mem h2
    · simp at h

theorem matchDot_text_mem {l : PyStr} {r : ℕ × PyStr × PyStr}
    (h : matchDot l = some r) : ∀ c ∈ r.2.1, c ∈ l := by
  simp only [matchDot] at h
  split at h
  · simp at h
  · split at h
    · next tail heq =>
      rcases Option.map_eq_some'.mp h with ⟨w, hw, hr⟩
      intro c hc
      rw [← hr] at hc
      have h1 := wsPlusRest_mem hw c hc
      have h2 : c ∈ List.dropWhile Char.isDigit l := by
        rw [heq]
        exact List.mem_cons_of_mem _ h1
      exact (List.dropWhile_sublist _).mem h2
    · simp at h

theorem matchQDot_text_mem {l : PyStr} {r : ℕ × PyStr × PyStr}
    (h : matchQDot l = some r) : ∀ c ∈ r.2.1, c ∈ l := by
  match l with
  | [] => simp [matchQDot] at h
  | q :: rest =>
    simp only [matchQDot] at h
    split at h
    · split at h
      · simp at h
      · rcases Option.map_eq_some'.mp h with ⟨w, hw, hr⟩
        intro c hc
        rw [← hr] at hc
        have h1 := wsPlusRest_mem hw c hc
        have h2 := (List.dropWhile_sublist Char.isDigit).mem h1
        have h3 := (List.dropWhile_sublist isSpaceChar).mem h2
        have h4 : c ∈ rest := by
          revert h3
          split
          · exact fun h3 => List.mem_cons_of_mem _ h3
          · exact fun h3 => h3
        exact List.mem_cons_of_mem _ h4
    · simp at h

theorem detect_question_text_mem {l : PyStr} {r : ℕ × PyStr × PyStr}
    (h : detect_question_start l = some r) : ∀ c ∈ r.2.1, c ∈ l := by
  simp only [detect_question_start] at h
  split at h
  · simp at h
  · split at h
    · next r' hp =>
      rw [Option.some_inj] at h
      subst h
      exact fun c hc => mem_strip (matchParen_text_mem hp c hc)
    · split at h
      · next r' hq =>
        rw [Option.some_inj] at h
        subst h
        exact fun c hc => mem_strip (matchQDot_text_mem hq c hc)
      · exact fun c hc => mem_strip (matchDot_text_mem h c hc)

theorem detect_option_text_mem {l : PyStr} {r : Char × PyStr × PyStr}
    (h : detect_option l = some r) : ∀ c ∈ r.2.1, c ∈ l := by
  simp only [detect_option] at h
  split at h
  · simp at h
  · split at h
    · next a sep rest heq =>
      have hmem : ∀ c ∈ strip rest, c ∈ l := by
        intro c hc
        apply mem_strip
        rw [heq]
        exact List.mem_cons_of_mem _ (List.mem_cons_of_mem _ (mem_strip hc))
      split at h
      · rw [Option.some_inj] at h
        subst h
        exact hmem
      · split at h
        · rw [Option.some_inj] at h
          subst h
          exact hmem
        · split at h
          · rw [Option.some_inj] at h
            subst h
            exact hmem
          · split at h
            · rw [Option.some_inj] at h
              subst h
              exact hmem
            · simp at h
    · simp at h

/- Provenance of the characters collected by the assembler loops. -/

theorem headerLoop_parts (ls : List PyStr) :
    (∀ x ∈ (headerLoop ls).1, ∃ l ∈ ls, x = strip l) ∧
    (∀ l ∈ (headerLoop ls).2, l ∈ ls) := by
  induction ls with
  | nil => simp [headerLoop]
  | cons l rest ih =>
    simp only [headerLoop]
    split
    · refine ⟨?_, ?_⟩
      · intro x hx
        obtain ⟨l', hl', hx'⟩ := ih.1 x hx
        exact ⟨l', List.mem_cons_of_mem _ hl', hx'⟩
      · intro l' hl'
        exact List.mem_cons_of_mem _ (ih.2 l' hl')
    · split
      · exact ⟨by simp, fun l' hl' => hl'⟩
      · refine ⟨?_, ?_⟩
        · intro x hx
          rcases List.mem_cons.mp hx with hx | hx
          · exact ⟨l, by simp, hx⟩
          · obtain ⟨l', hl', hx'⟩ := ih.1 x hx
            exact ⟨l', List.mem_cons_of_mem _ hl', hx'⟩
        · intro l' hl'
          exact List.mem_cons_of_mem _ (ih.2 l' hl')

theorem optContLoop_parts (ls : List PyStr) :
    (∀ x ∈ (optContLoop ls).1, ∃ l ∈ ls, x = strip l) ∧
    (∀ l ∈ (optContLoop ls).2, l ∈ ls) := by
  induction ls with
  | nil => simp [optContLoop]
  | cons l rest ih =>
    simp only [optContLoop]
    split
    · refine ⟨?_, ?_⟩
      · intro x hx
        obtain ⟨l', hl', hx'⟩ := ih.1 x hx
        exact ⟨l', List.mem_cons_of_mem _ hl', hx'⟩
      · intro l' hl'
        exact List.mem_cons_of_mem _ (ih.2 l' hl')
    · split
      · exact ⟨by simp, fun l' hl' => hl'⟩
      · refine ⟨?_, ?_⟩
        · intro x hx
          rcases List.mem_cons.mp hx with hx | hx
          · exact ⟨l, by simp, hx⟩
          · obtain ⟨l', hl', hx'⟩ := ih.1 x hx
            exact ⟨l', List.mem_cons_of_mem _ hl', hx'⟩
        · intro l' hl'
          exact List.mem_cons_of_mem _ (ih.2 l' hl')

/-- Characters of every option text produced by the option loop are either the
joining space or come from an input line; the unconsumed remainder is a subset
of the input lines. -/
theorem optionsLoopF_chars : ∀ (fuel : ℕ) (ls : List PyStr)
    (r : List (Char × PyStr) × Option Char × List PyStr), optionsLoopF fuel ls = some r →
    (∀ o ∈ r.1, ∀ c ∈ o.2, c = ' ' ∨ ∃ l ∈ ls, c ∈ l) ∧ (∀ l ∈ r.2.2, l ∈ ls) := by
  intro fuel
  induction fuel with
  | zero => intro ls r h; simp [optionsLoopF] at h
  | succ fuel ih =>
    intro ls r h
    match ls with
    | [] =>
      simp only [optionsLoopF, Option.some_inj] at h
      rw [← h]
      simp
    | l :: rest =>
      simp only [optionsLoopF] at h
      split at h
      · obtain ⟨h1, h2⟩ := ih rest r h
        refine ⟨?_, ?_⟩
        · intro o ho c hc
          rcases h1 o ho c hc with hc | ⟨l', hl', hc⟩
          · exact Or.inl hc
          · exact Or.inr ⟨l', List.mem_cons_of_mem _ hl', hc⟩
        · exact fun l' hl' => List.mem_cons_of_mem _ (h2 l' hl')
      · split at h
        · rw [Option.some_inj] at h
          rw [← h]
          exact ⟨by simp, fun l' hl' => hl'⟩
        · split at h
          · rw [Option.some_inj] at h
            rw [← h]
            exact ⟨by simp, fun l' hl' => hl'⟩
          · split at h
            · next olab heq =>
              split at h
              · next r' heq2 =>
                obtain ⟨h1, h2⟩ := ih _ _ heq2
                rw [Option.some_inj] at h
                rw [← h]
                have hconts := optContLoop_parts rest
                refine ⟨?_, ?_⟩
                · intro o ho c hc
                  rcases List.mem_cons.mp ho with ho | ho
                  · subst ho
                    have hc' := extract_answer_mem _ c hc
                    have hc'' := mem_strip hc'
                    rcases mem_joinSpace _ hc'' with hsp | ⟨p, hp, hcp⟩
                    · exact Or.inl hsp
                    · rcases List.mem_append.mp hp with hp | hp
                      · right
                        refine ⟨l, by simp, ?_⟩
                        have hptxt : p = olab.2.1 := by
                          revert hp
                          split
                          · simp
                          · intro hp
                            simp at hp
                            exact hp
                        rw [hptxt] at hcp
                        exact mem_strip (detect_option_text_mem heq c hcp)
                      · obtain ⟨l', hl', hpe⟩ := hconts.1 p hp
                        right
                        refine ⟨l', List.mem_cons_of_mem _ hl', ?_⟩
                        rw [hpe] at hcp
                        exact mem_strip hcp
                  · rcases h1 o ho c hc with hc1 | ⟨l', hl', hc1⟩
                    · exact Or.inl hc1
                    · exact Or.inr ⟨l', List.mem_cons_of_mem _ (hconts.2 l' hl'), hc1⟩
                · intro l' hl'
                  exact List.mem_cons_of_mem _ (hconts.2 l' (h2 l' hl'))
              · simp at h
            · obtain ⟨h1, h2⟩ := ih rest r h
              refine ⟨?_, ?_⟩
              · intro o ho c hc
                rcases h1 o ho c hc with hc1 | ⟨l', hl', hc1⟩
                · exact Or.inl hc1
                · exact Or.inr ⟨l', List.mem_cons_of_mem _ hl', hc1⟩
              · exact fun l' hl' => List.mem_cons_of_mem _ (h2 l' hl')

theorem contains_newline_false {l : PyStr} (h : ('\n' : Char) ∉ l) :
    l.contains '\n' = false := by
  rw [Bool.eq_false_iff]
  intro hc
  exact h (List.elem_iff.mp hc)

theorem create_question_has_multiline (n : ℕ) (f : PyStr) (o : List (Char × PyStr))
    (c : Option Char) (s : Option PyStr) (src : PyStr) :
    (create_question n f o c s src).has_multiline =
      ((clean_text f).contains '\n' || o.any fun p => p.2.contains '\n') := rfl

theorem splitNl_no_newline (s : PyStr) : ∀ l ∈ splitNl s, ('\n' : Char) ∉ l := by
  induction s with
  | nil =>
    intro l hl
    simp only [splitNl, List.mem_singleton] at hl
    subst hl
    simp
  | cons c rest ih =>
    intro l hl
    simp only [splitNl] at hl
    split at hl
    · rcases List.mem_cons.mp hl with hl | hl
      · subst hl
        simp
      · exact ih l hl
    · next hc =>
      split at hl
      · next hnil =>
        rcases List.mem_cons.mp hl with hl | hl
        · subst hl
          intro hmem
          rcases List.mem_singleton.mp hmem with rfl
          exact hc rfl
        · simp at hl
      · next hd td hht =>
        rcases List.mem_cons.mp hl with hl | hl
        · subst hl
          intro hmem
          rcases List.mem_cons.mp hmem with hmem | hmem
          · exact hc hmem.symm
          · exact ih hd (by rw [hht]; simp) hmem
        · exact ih l (by rw [hht]; exact List.mem_cons_of_mem _ hl)

theorem solLoop_rem_mem (ls : List PyStr) : ∀ l ∈ (solLoop ls).2, l ∈ ls := by
  induction ls with
  | nil => simp [solLoop]
  | cons l rest ih =>
    simp only [solLoop]
    split
    · exact fun l' hl' => List.mem_cons_of_mem _ (ih l' hl')
    · split
      · exact fun l' hl' => hl'
      · exact fun l' hl' => List.mem_cons_of_mem _ (ih l' hl')

theorem solPhase_rem_mem (ls : List PyStr) : ∀ l ∈ (solPhase ls).2, l ∈ ls := by
  intro l' hl'
  simp only [solPhase] at hl'
  revert hl'
  split
  · simp
  · next l2 rest2 =>
    split
    · split
      · exact fun hl' => hl'
      · exact fun hl' => List.mem_cons_of_mem _ (solLoop_rem_mem rest2 l' hl')
    · exact fun hl' => hl'

/-- A question promoted from newline-free lines has `has_multiline = false`:
the header pieces and option texts are space-joins of stripped line fragments,
and `clean_text` only removes characters. -/
theorem promoted_no_multiline {l : PyStr} {rest : List PyStr} {q0 : ℕ × PyStr × PyStr}
    (hnl_l : ('\n' : Char) ∉ l) (hnl_rest : ∀ l' ∈ rest, ('\n' : Char) ∉ l')
    (heqq : detect_question_start (strip l) = some q0) (parts1 : List PyStr)
    (hparts1 : parts1 = [] ∨ parts1 = [q0.2.1]) (co : Option Char) (so : Option PyStr)
    (src : PyStr) :
    (create_question q0.1 (strip (joinSpace (parts1 ++ (headerLoop rest).1)))
      (optionsLoop (headerLoop rest).2).1 co so src).has_multiline = false := by
  have hfull : ('\n' : Char) ∉ strip (joinSpace (parts1 ++ (headerLoop rest).1)) := by
    intro hc
    have hc1 := mem_strip hc
    rcases mem_joinSpace _ hc1 with hc2 | ⟨p, hp, hcp⟩
    · exact absurd hc2 (by decide)
    · rcases List.mem_append.mp hp with hp | hp
      · rcases hparts1 with h1 | h1 <;> rw [h1] at hp
        · simp at hp
        · rw [List.mem_singleton] at hp
          subst hp
          exact hnl_l (mem_strip (detect_question_text_mem heqq _ hcp))
      · obtain ⟨l', hl', hpe⟩ := (headerLoop_parts rest).1 p hp
        rw [hpe] at hcp
        exact hnl_rest l' hl' (mem_strip hcp)
  have hopts : ∀ o ∈ (optionsLoop (headerLoop rest).2).1, ('\n' : Char) ∉ o.2 := by
    intro o ho hc
    have hsome := Option.some_get (optionsLoopF_isSome
      ((headerLoop rest).2.length + 1) (headerLoop rest).2 (Nat.lt_succ_self _))
    obtain ⟨hoc, _⟩ := optionsLoopF_chars _ _ _ hsome.symm
    rcases hoc o ho _ hc with h1 | ⟨l', hl', h1⟩
    · exact absurd h1 (by decide)
    · exact hnl_rest l' ((headerLoop_parts rest).2 l' hl') h1
  rw [create_question_has_multiline,
    contains_newline_false (fun hc => hfull (clean_text_mem _ hc))]
  simp only [Bool.false_or]
  rw [List.any_eq_false]
  intro p hp
  rw [contains_newline_false (hopts p hp)]
  simp

/-- Every question emitted from newline-free lines has `has_multiline = false`. -/
theorem parseLoopF_no_multiline (src : PyStr) : ∀ (fuel : ℕ) (ls : List PyStr)
    (res : List Question × ℕ), (∀ l ∈ ls, ('\n' : Char) ∉ l) →
    parseLoopF src fuel ls = some res → ∀ q ∈ res.1, q.has_multiline = false := by
  intro fuel
  induction fuel with
  | zero => intro ls res _ h; simp [parseLoopF] at h
  | succ fuel ih =>
    intro ls res hnl h
    match ls with
    | [] =>
      simp only [parseLoopF, Option.some_inj] at h
      intro q hq
      rw [← h] at hq
      simp at hq
    | l :: rest =>
      have hnl_rest : ∀ l' ∈ rest, ('\n' : Char) ∉ l' :=
        fun l' hl' => hnl l' (List.mem_cons_of_mem _ hl')
      have hnl_l : ('\n' : Char) ∉ l := hnl l (by simp)
      simp only [parseLoopF] at h
      split at h
      · exact ih rest res hnl_rest h
      · split at h
        · exact ih rest res hnl_rest h
        · next q0 heqq =>
          have hsolnl : ∀ l' ∈ (solPhase (optionsLoop (headerLoop rest).2).2.2).2,
              ('\n' : Char) ∉ l' := by
            intro l' hl'
            have hsome := Option.some_get (optionsLoopF_isSome
              ((headerLoop rest).2.length + 1) (headerLoop rest).2 (Nat.lt_succ_self _))
            obtain ⟨_, hor⟩ := optionsLoopF_chars _ _ _ hsome.symm
            exact hnl_rest l'
              ((headerLoop_parts rest).2 l' (hor l' (solPhase_rem_mem _ l' hl')))
          split at h
          · exact absurd h (by simp)
          · next qs heq =>
            have htail := ih _ qs hsolnl heq
            split at h <;> split at h <;> rw [Option.some_inj] at h <;> intro q hq <;>
              rw [← h] at hq
            · rcases List.mem_cons.mp hq with hq | hq
              · subst hq
                exact promoted_no_multiline hnl_l hnl_rest heqq _ (Or.inl rfl) _ _ _
              · exact htail q hq
            · exact htail q hq
            · rcases List.mem_cons.mp hq with hq | hq
              · subst hq
                exact promoted_no_multiline hnl_l hnl_rest heqq _ (Or.inr rfl) _ _ _
              · exact htail q hq
            · exact htail q hq

/-- C9: every Question emitted by `parse_questions_from_text` has
`has_multiline = false` — the parser splits the input on newlines and
space-joins stripped fragments, so neither the question text nor any option
text can contain an embedded line break. -/
theorem C9_theorem (text source_file : PyStr) :
    ∀ q ∈ parse_questions_from_text text source_file, q.has_multiline = false := by
  intro q hq
  have h := Option.some_get (parseLoopF_isSome source_file ((splitNl text).length + 1)
    (splitNl text) (Nat.lt_succ_self _))
  exact parseLoopF_no_multiline source_file _ _ _ (splitNl_no_newline text) h.symm q hq

/-- C1 witness: the amended claim at a concrete parsed question. -/
theorem C1_witness :
    2 ≤ ((parse_questions_from_text (pstr "1. Ok?\nA. x\nB. y")
        (pstr "")).headI).options.length ∧
    ∃ w, strip w ≠ [] ∧
      ((parse_questions_from_text (pstr "1. Ok?\nA. x\nB. y")
        (pstr "")).headI).question_text = clean_text (strip w) :=
  C1_theorem (pstr "1. Ok?\nA. x\nB. y") (pstr "")
    ((parse_questions_from_text (pstr "1. Ok?\nA. x\nB. y") (pstr "")).headI) (by decide)

/-- C2 witness: the amended claim at a concrete option of a concrete parsed
question. -/
theorem C2_witness :
    (('A', pstr "x") : Char × PyStr).1.isUpper = true ∧
    ((('A', pstr "x") : Char × PyStr).1 = 'A' ∨ (('A', pstr "x") : Char × PyStr).1 = 'B' ∨
      (('A', pstr "x") : Char × PyStr).1 = 'C' ∨ (('A', pstr "x") : Char × PyStr).1 = 'D') :=
  C2_theorem (pstr "1. Ok?\nA. x\nB. y") (pstr "")
    ((parse_questions_from_text (pstr "1. Ok?\nA. x\nB. y") (pstr "")).headI) (by decide)
    ('A', pstr "x") (by decide)

/-- C9 witness: a concrete parsed question has `has_multiline = false`. -/
theorem C9_witness :
    ((parse_questions_from_text (pstr "1. Ok?\nA. x\nB. y")
        (pstr "")).headI).has_multiline = false :=
  C9_theorem (pstr "1. Ok?\nA. x\nB. y") (pstr "")
    ((parse_questions_from_text (pstr "1. Ok?\nA. x\nB. y") (pstr "")).headI) (by decide)

example : detect_question_start (pstr "Q.12 What is this?") =
    some (12, pstr "What is this?", pstr "q_dot") := by decide
example : detect_question_start (pstr "1. What?") = some (1, pstr "What?", pstr "dot") := by
  decide
example : detect_question_start (pstr "3) Pick one") =
    some (3, pstr "Pick one", pstr "parenthesis") := by decide
example : detect_question_start (pstr "Answer: B") = none := by decide
example : detect_option (pstr "c) Paris (Correct)") =
    some ('C', pstr "Paris (Correct)", pstr "lower_paren") := by decide
example : detect_solution (pstr "Answer: B") = some (pstr "B") := by decide
example : detect_solution (pstr "Solution:  use F = ma") = some (pstr "use F = ma") := by
  decide
example : extract_answer_from_option (pstr "Paris (Correct)") = (pstr "Paris", true) := by
  decide

end PastPaper
